import Mathlib

/-!
Shallow embedding of `tools/format_commit.py` (Formatter) and
`tools/lint_commit.py` (Validator).

Modelling conventions:
* A Python `str` is a `List Char` (`Line`).  A multi-line string is the same
  type; `pySplitlines` models `str.splitlines()` (line-break set of CPython,
  with `"\r\n"` counting as a single break, and no trailing empty line).
* `str.strip()` / `str.rstrip()` are `stripL` / `rstripL` over the CPython
  whitespace class `isWS`.
* Exceptions (`raise ValueError`) become `Except FmtError _`; each
  constructor of `FmtError` corresponds to exactly one `raise` site of
  `format_commit.py`.  Likewise each constructor of `LintError` corresponds to
  exactly one diagnostic string of `lint_commit.py` (`fail(...)` sites;
  two sites that emit the same string share a constructor).
* The filesystem and git (the PathOracle of the spec) are a record of
  read-only query functions passed explicitly: `existsRel p` models
  `(root / p).exists()`, `resolvesToRoot p` models
  `(root / p).resolve() == root`, `withinRoot p` models
  `(root / p).resolve().relative_to(root)` succeeding, `resolvedExists p`
  models `(root / p).resolve().exists()`, and `gitLsDeleted p` models the
  `subprocess.run(["git", ..., "ls-files", "--deleted", "--", p])` call:
  `.error ()` is an `OSError`, `.ok out` is the captured stdout.
  Since `(root / p).resolve()` equals `root` only when it also resolves
  inside `root`, a coherence field `root_within` records this fact of
  `pathlib` semantics.
-/

abbrev Line : Type := List Char

/-- CPython's `str` whitespace class (`str.isspace` / default `strip`). -/
def isWS (c : Char) : Bool :=
  c == ' ' || c == '\t' || c == '\n' || c == '\r' || c == '\x0b' || c == '\x0c' ||
  c == '\x1c' || c == '\x1d' || c == '\x1e' || c == '\x1f' || c == '\x85' || c == '\xa0' ||
  c == '\u1680' || ('\u2000' ≤ c && c ≤ '\u200a') || c == '\u2028' || c == '\u2029' ||
  c == '\u202f' || c == '\u205f' || c == '\u3000'

/-- CPython's `str.splitlines()` line-break class. -/
def isLineBreak (c : Char) : Bool :=
  c == '\n' || c == '\r' || c == '\x0b' || c == '\x0c' ||
  c == '\x1c' || c == '\x1d' || c == '\x1e' || c == '\x85' || c == '\u2028' || c == '\u2029'

/-- Python `s.lstrip()`. -/
def lstripL (l : Line) : Line := l.dropWhile isWS

/-- Python `s.rstrip()`. -/
def rstripL (l : Line) : Line := (l.reverse.dropWhile isWS).reverse

/-- Python `s.strip()`. -/
def stripL (l : Line) : Line := lstripL (rstripL l)

/-- Python truthiness of `s.strip()` being falsy (`not s.strip()`). -/
def isBlankL (l : Line) : Bool := (stripL l).isEmpty

/-- Python `s.splitlines()`. -/
def pySplitlines : Line → List Line
  | [] => []
  | '\r' :: '\n' :: cs => [] :: pySplitlines cs
  | c :: cs =>
    if isLineBreak c then [] :: pySplitlines cs
    else
      match pySplitlines cs with
      | [] => [[c]]
      | l :: ls => (c :: l) :: ls

/-- Python `"\n".join(lines)`. -/
def joinNL : List Line → Line
  | [] => []
  | [l] => l
  | l :: l2 :: ls => l ++ '\n' :: joinNL (l2 :: ls)

/-- The two `while` loops that pop blank (`not line.strip()`) lines from both
ends of a line list (used by `_split_context_lines` and `_split_item_lines`). -/
def trimBlankEnds (lines : List Line) : List Line :=
  ((lines.dropWhile isBlankL).reverse.dropWhile isBlankL).reverse

/-- Python `s.split(sep, 1)` when `sep` occurs (`none` models `sep not in s`).
Returns the part before the first occurrence and the part after it. -/
def splitBeforeFirst (sep : Line) : Line → Option (Line × Line)
  | [] => none
  | c :: cs =>
    if (c :: cs).take sep.length = sep then some ([], (c :: cs).drop sep.length)
    else
      match splitBeforeFirst sep cs with
      | none => none
      | some (a, b) => some (c :: a, b)

/-- Python `lines.index(target, idx)` relative to the suffix `lines[idx:]`:
splits at the first occurrence of `target`, which starts the second part. -/
def splitAtFirst (target : Line) : List Line → Option (List Line × List Line)
  | [] => none
  | l :: ls =>
    if l = target then some ([], l :: ls)
    else
      match splitAtFirst target ls with
      | none => none
      | some (a, b) => some (l :: a, b)

/-- `MAX_CONTEXT_LINES` (same literal in both files). -/
def MAX_CONTEXT_LINES : Nat := 8

def ctxHeader : Line := "Context:".data
def enHeader : Line := "What this enables:".data
def chHeader : Line := "Changes (by file):".data
def dfHeader : Line := "Deferred:".data

/-- Diagnostics of `lint_commit.py`, one constructor per distinct
`fail(...)` message (the `String` payloads carry the interpolated
section-label/header of the f-strings). -/
inductive LintError : Type where
  | emptyMessage                            -- "commit message is empty"
  | emptySubject                            -- "subject line must not be empty"
  | missingBlankAfterSubject                -- "expected blank line after subject"
  | missingHeader (header : String)         -- "expected '{header}' section header"
  | badSeparator                            -- "expected single blank line between sections"
  | emptySection (header : String)          -- "{header} section must not be empty"
  | ctxEmpty                                -- "Context section must include at least one line"
  | ctxEdgeBlank                            -- "Context section must not start or end with blank lines"
  | ctxConsecutiveBlanks                    -- "Context section must not contain consecutive blank lines"
  | ctxTooLong                              -- "Context section must be 1-8 lines"
  | noBullet (label : String)               -- "{label} section must contain at least one bullet"
  | blankLineInSection (label : String)     -- "{label} section must not contain blank lines"
  | bulletMissingText (label : String)      -- "{label} bullet must include text"
  | badChangeFormat (label : String)        -- "{label} bullets must use 'label: description' format"
  | orphanContinuation (label : String)     -- "{label} continuation line must follow a bullet"
  | continuationMissingText (label : String) -- "{label} continuation line must include text"
  | badLineFormat (label : String)          -- "{label} lines must start with '- ' or be indented continuations"
  deriving DecidableEq

/-- `_strip_trailing_blanks` of `lint_commit.py` (drops trailing lines equal
to the empty string, exactly `lines[-1] == ""`). -/
def _strip_trailing_blanks (lines : List Line) : List Line :=
  (lines.reverse.dropWhile (fun l => l.isEmpty)).reverse

/-- `_strip_trailing_section_blanks` of `lint_commit.py`. -/
def _strip_trailing_section_blanks (lines : List Line) : List Line × Nat :=
  let trimmed := (lines.reverse.dropWhile (fun l => l.isEmpty)).reverse
  (trimmed, lines.length - trimmed.length)

/-- The `for` loop of `_validate_context_section` (tracks `blank_run` and
`non_empty`; returns the final `non_empty` on success). -/
def ctxLoop : List Line → Nat → Nat → Except LintError Nat
  | [], _, ne => .ok ne
  | l :: ls, br, ne =>
    if (stripL l).isEmpty then
      if br + 1 > 1 then .error .ctxConsecutiveBlanks
      else ctxLoop ls (br + 1) ne
    else ctxLoop ls 0 (ne + 1)

/-- `_validate_context_section` of `lint_commit.py`. -/
def _validate_context_section (lines : List Line) : Option LintError :=
  match lines with
  | [] => some .ctxEmpty
  | first :: rest =>
    if first = [] || (first :: rest).getLastD [] = [] then some .ctxEdgeBlank
    else
      match ctxLoop (first :: rest) 0 0 with
      | .error e => some e
      | .ok ne => if ne > MAX_CONTEXT_LINES then some .ctxTooLong else none

/-- The `for` loop of `_validate_bullet_section` (tracks `in_bullet` and
`bullet_count`; returns the final `bullet_count` on success). -/
def bulletLoop (rc : Bool) (label : String) : List Line → Bool → Nat → Except LintError Nat
  | [], _, bc => .ok bc
  | l :: ls, inb, bc =>
    if l = [] then .error (.blankLineInSection label)
    else if l.take 2 = ('-' :: ' ' :: []) then
      let content := l.drop 2
      if (stripL content).isEmpty then .error (.bulletMissingText label)
      else if rc then
        match splitBeforeFirst (':' :: []) content with
        | none => .error (.badChangeFormat label)
        | some (lab, desc) =>
          if (stripL lab).isEmpty || (stripL desc).isEmpty then .error (.badChangeFormat label)
          else bulletLoop rc label ls true (bc + 1)
      else bulletLoop rc label ls true (bc + 1)
    else if l.take 2 = (' ' :: ' ' :: []) || l.take 1 = ('\t' :: []) then
      if inb = false then .error (.orphanContinuation label)
      else if (stripL l).isEmpty then .error (.continuationMissingText label)
      else bulletLoop rc label ls inb bc
    else .error (.badLineFormat label)

/-- `_validate_bullet_section` of `lint_commit.py` (`rc` is `require_colon`). -/
def _validate_bullet_section (lines : List Line) (label : String) (rc : Bool) :
    Option LintError :=
  match lines with
  | [] => some (.noBullet label)
  | _ =>
    match bulletLoop rc label lines false 0 with
    | .error e => some e
    | .ok bc => if bc = 0 then some (.noBullet label) else none

/-- One iteration of the header loop of `lint_message`: check the expected
header, delimit the section body (up to the next header, for non-final
sections), check the single-blank-line separator, non-emptiness, and the
section validator; returns the lines following the section. -/
def parseSection (remaining : List Line) (header : Line) (headerStr : String)
    (validate : List Line → Option LintError)
    (nextHeader : Option (Line × String)) : Except LintError (List Line) :=
  match remaining with
  | [] => .error (.missingHeader headerStr)
  | l :: rest =>
    if l ≠ header then .error (.missingHeader headerStr)
    else
      match nextHeader with
      | some (nh, nhStr) =>
        match splitAtFirst nh rest with
        | none => .error (.missingHeader nhStr)
        | some (secRaw, rest2) =>
          let p := _strip_trailing_section_blanks secRaw
          if p.2 ≠ 1 then .error .badSeparator
          else if p.1 = [] then .error (.emptySection headerStr)
          else
            match validate p.1 with
            | some e => .error e
            | none => .ok rest2
      | none =>
        if rest = [] then .error (.emptySection headerStr)
        else
          match validate rest with
          | some e => .error e
          | none => .ok []

/-- `lint_message` of `lint_commit.py`: `none` is the success verdict
(exit code 0), `some e` the first diagnostic. -/
def lint_message (text : Line) : Option LintError :=
  let lines := _strip_trailing_blanks (pySplitlines text)
  match lines with
  | [] => some .emptyMessage
  | subject :: _ =>
    if (stripL subject).isEmpty then some .emptySubject
    else if lines.length < 3 || lines[1]? ≠ some [] then some .missingBlankAfterSubject
    else
      let r : Except LintError (List Line) := do
        let r1 ← parseSection (lines.drop 2) ctxHeader ("Context:")
          _validate_context_section (some (enHeader, "What this enables:"))
        let r2 ← parseSection r1 enHeader ("What this enables:")
          (fun ls => _validate_bullet_section ls ("What this enables") false)
          (some (chHeader, "Changes (by file):"))
        let r3 ← parseSection r2 chHeader ("Changes (by file):")
          (fun ls => _validate_bullet_section ls ("Changes") true)
          (some (dfHeader, "Deferred:"))
        parseSection r3 dfHeader ("Deferred:")
          (fun ls => _validate_bullet_section ls ("Deferred") false) none
      match r with
      | .error e => some e
      | .ok _ => none

/-! ### Formatter (`tools/format_commit.py`) -/

/-- Failures of `format_commit.py`, one constructor per `raise ValueError`
site (the two `"{label} must be non-empty"` sites of `_split_item_lines`
share `emptyItem`; payloads carry the interpolated values). -/
inductive FmtError : Type where
  | emptySubject                    -- "subject must not be empty"
  | noContext                       -- "at least one --context entry is required"
  | emptyContext                    -- "--context entries must be non-empty"
  | consecutiveBlanks               -- "context must not contain consecutive blank lines"
  | contextTooLong                  -- "context must be 1-8 lines"
  | noEnable                        -- "at least one --enable entry is required"
  | noChange                        -- "at least one --change entry is required"
  | noDeferred                      -- "at least one --deferred entry is required"
  | emptyItem (label : String)      -- "{label} must be non-empty"
  | blankInItem (label : String)    -- "{label} must not contain blank lines"
  | missingColon (item : Line)      -- "--change entry must include 'path: description' (got {item!r})"
  | missingLabel (item : Line)      -- "--change entry missing label before colon (got {item!r})"
  | missingDescription (item : Line) -- "--change entry missing description after colon (got {item!r})"
  | pathIsRoot                      -- "change label must not be the repo root; ..."
  | pathOutsideRepo (path : Line)   -- "change label path must be within repo: {path}"
  | pathNotFound (path : Line)      -- "change label path does not exist: {path}"
  deriving DecidableEq

/-- The external collaborators of the Formatter (filesystem + git), see the
module docstring.  `root_within` records that a path resolving to the repo
root in particular resolves within the repo root. -/
structure PathOracle : Type where
  existsRel : Line → Bool
  resolvesToRoot : Line → Bool
  withinRoot : Line → Bool
  resolvedExists : Line → Bool
  gitLsDeleted : Line → Except Unit Line
  root_within : ∀ p, resolvesToRoot p = true → withinRoot p = true

/-- `_is_deleted_in_git` of `format_commit.py`: an `OSError` from
`subprocess.run` yields `false`; otherwise the path is looked up in the
split stdout of `git ls-files --deleted`. -/
def _is_deleted_in_git (o : PathOracle) (path : Line) : Bool :=
  match o.gitLsDeleted path with
  | .error _ => false
  | .ok out => (pySplitlines out).contains path

/-- The `cleaned` loop of `_split_context_lines` (tracks `blank_run` and
`non_empty`, building the cleaned lines; returns them with the final
`non_empty` count). -/
def ctxClean : List Line → Nat → Nat → Except FmtError (List Line × Nat)
  | [], _, ne => .ok ([], ne)
  | l :: ls, br, ne =>
    if (stripL l).isEmpty then
      if br + 1 > 1 then .error .consecutiveBlanks
      else
        match ctxClean ls (br + 1) ne with
        | .error e => .error e
        | .ok (c, n) => .ok ([] :: c, n)
    else
      match ctxClean ls 0 (ne + 1) with
      | .error e => .error e
      | .ok (c, n) => .ok (stripL l :: c, n)

/-- The flattening step of `_split_context_lines`: all entries' lines in
order, each line `rstrip`ped. -/
def flattenCtx (entries : List Line) : List Line :=
  (entries.map (fun e => (pySplitlines e).map rstripL)).flatten

/-- `_split_context_lines` of `format_commit.py`. -/
def _split_context_lines (entries : List Line) : Except FmtError (List Line) :=
  let tl := trimBlankEnds (flattenCtx entries)
  if tl = [] then .error .emptyContext
  else
    match ctxClean tl 0 0 with
    | .error e => .error e
    | .ok (c, ne) => if ne > MAX_CONTEXT_LINES then .error .contextTooLong else .ok c

/-- The continuation-lines loop of `_split_item_lines` (strips each line,
failing on blank interior lines). -/
def itemTail (label : String) : List Line → Except FmtError (List Line)
  | [] => .ok []
  | l :: ls =>
    if (stripL l).isEmpty then .error (.blankInItem label)
    else
      match itemTail label ls with
      | .error e => .error e
      | .ok t => .ok (stripL l :: t)

/-- `_split_item_lines` of `format_commit.py`; the guaranteed-non-empty
result list is returned as a `(first, rest)` pair. -/
def _split_item_lines (item : Line) (label : String) : Except FmtError (Line × List Line) :=
  match trimBlankEnds (pySplitlines item) with
  | [] => .error (.emptyItem label)
  | first :: rest =>
    let f0 := stripL first
    let f := if f0.take 2 = ('-' :: ' ' :: []) then stripL (f0.drop 2) else f0
    if f = [] then .error (.emptyItem label)
    else
      match itemTail label rest with
      | .error e => .error e
      | .ok t => .ok (f, t)

/-- `_format_bullet_lines` of `format_commit.py` (with the default
two-space `indent`). -/
def _format_bullet_lines (first : Line) (rest : List Line) : List Line :=
  ('-' :: ' ' :: first) :: rest.map (fun l => ' ' :: ' ' :: l)

/-- `_extract_path_candidate` of `format_commit.py`. -/
def _extract_path_candidate (label : Line) : Line :=
  match splitBeforeFirst (' ' :: '(' :: []) label with
  | some (before, _) => if label.getLastD ' ' = ')' then stripL before else label
  | none => label

/-- `_should_validate_path` of `format_commit.py`. -/
def _should_validate_path (o : PathOracle) (candidate : Line) : Bool :=
  if candidate.contains ' ' || candidate.contains '\t' then false
  else if candidate.contains '/' || candidate.take 1 = ('.' :: []) || candidate.contains '.' then true
  else o.existsRel candidate

/-- `_validate_path` of `format_commit.py`. -/
def _validate_path (o : PathOracle) (path : Line) : Except FmtError Unit :=
  if o.resolvesToRoot path then .error .pathIsRoot
  else if o.withinRoot path then
    if o.resolvedExists path then .ok ()
    else if _is_deleted_in_git o path then .ok ()
    else .error (.pathNotFound path)
  else .error (.pathOutsideRepo path)

/-- The per-entry body of the `--enable`/`--deferred` loops of
`format_message`, over the whole entry list (first failure wins, matching
the sequential loop). -/
def formatBulletEntries (label : String) : List Line → Except FmtError (List Line)
  | [] => .ok []
  | item :: rest =>
    match _split_item_lines item label with
    | .error e => .error e
    | .ok (f, t) =>
      match formatBulletEntries label rest with
      | .error e => .error e
      | .ok rs => .ok (_format_bullet_lines f t ++ rs)

/-- The per-entry body of the `--change` loop of `format_message`
(lines 212-227 of `format_commit.py`). -/
def formatChangeEntry (o : PathOracle) (item : Line) : Except FmtError (List Line) :=
  match _split_item_lines item ("--change entry") with
  | .error e => .error e
  | .ok (first, rest) =>
    match splitBeforeFirst (':' :: []) first with
    | none => .error (.missingColon item)
    | some (labRaw, descRaw) =>
      let label := stripL labRaw
      let description := stripL descRaw
      if label = [] then .error (.missingLabel item)
      else if description = [] then .error (.missingDescription item)
      else
        let rendered := label ++ ':' :: ' ' :: description
        if _should_validate_path o (_extract_path_candidate label) then
          match _validate_path o (_extract_path_candidate label) with
          | .error e => .error e
          | .ok _ => .ok (_format_bullet_lines rendered rest)
        else .ok (_format_bullet_lines rendered rest)

/-- The `--change` loop of `format_message` over the whole entry list. -/
def formatChangeEntries (o : PathOracle) : List Line → Except FmtError (List Line)
  | [] => .ok []
  | item :: rest =>
    match formatChangeEntry o item with
    | .error e => .error e
    | .ok ls =>
      match formatChangeEntries o rest with
      | .error e => .error e
      | .ok rs => .ok (ls ++ rs)

/-- `format_message` of `format_commit.py` (stage order as in the source:
subject, context, enables, changes, deferred, then assembly with a final
newline). -/
def format_message (o : PathOracle) (subject : Line)
    (context enables changes deferred : List Line) : Except FmtError Line :=
  let subj := stripL subject
  if subj = [] then .error .emptySubject
  else if context = [] then .error .noContext
  else
    match _split_context_lines context with
    | .error e => .error e
    | .ok context_lines =>
      if enables = [] then .error .noEnable
      else
        match formatBulletEntries ("--enable entry") enables with
        | .error e => .error e
        | .ok enable_lines =>
          if changes = [] then .error .noChange
          else
            match formatChangeEntries o changes with
            | .error e => .error e
            | .ok change_lines =>
              if deferred = [] then .error .noDeferred
              else
                match formatBulletEntries ("--deferred entry") deferred with
                | .error e => .error e
                | .ok deferred_lines =>
                  .ok (joinNL ([subj, [], ctxHeader] ++ context_lines ++
                    [[], enHeader] ++ enable_lines ++ [[], chHeader] ++ change_lines ++
                    [[], dfHeader] ++ deferred_lines) ++ ('\n' :: []))

/-! ### Observation helpers used only to state claims -/

/-- What `ctxClean` does to a single surviving line. -/
def cleanLine (l : Line) : Line := if (stripL l).isEmpty then [] else stripL l

/-- Number of non-blank lines. -/
def nonBlankCount (lines : List Line) : Nat :=
  (lines.filter (fun l => !(stripL l).isEmpty)).length

/-- Whether two adjacent lines are both blank. -/
def hasAdjacentBlanks : List Line → Bool
  | a :: b :: t => ((stripL a).isEmpty && (stripL b).isEmpty) || hasAdjacentBlanks (b :: t)
  | _ => false

/-- A concrete oracle: the given paths exist, nothing is recorded as deleted,
everything resolves inside the repo root and nothing to the root itself. -/
def fsOracle (fs : List Line) : PathOracle where
  existsRel := fun p => fs.contains p
  resolvesToRoot := fun _ => false
  withinRoot := fun _ => true
  resolvedExists := fun p => fs.contains p
  gitLsDeleted := fun _ => .ok []
  root_within := fun _ h => by simp at h

/-- A concrete oracle: nothing exists, but `git ls-files --deleted` reports
each of the given paths (on its own line) when queried for it. -/
def deletedOracle (deleted : List Line) : PathOracle where
  existsRel := fun _ => false
  resolvesToRoot := fun _ => false
  withinRoot := fun _ => true
  resolvedExists := fun _ => false
  gitLsDeleted := fun p => if deleted.contains p then .ok p else .ok []
  root_within := fun _ h => by simp at h

/-- A concrete oracle: nothing exists and every git query fails with an
`OSError`. -/
def errOracle : PathOracle where
  existsRel := fun _ => false
  resolvesToRoot := fun _ => false
  withinRoot := fun _ => true
  resolvedExists := fun _ => false
  gitLsDeleted := fun _ => .error ()
  root_within := fun _ h => by simp at h

/-- Decidable equality for `Except`, used to evaluate the embedded
functions on concrete inputs. -/
instance exceptDecEq {α β : Type} [DecidableEq α] [DecidableEq β] : DecidableEq (Except α β) :=
  fun a b =>
    match a, b with
    | .error x, .error y =>
      if h : x = y then .isTrue (by rw [h]) else .isFalse (by simp [h])
    | .error _, .ok _ => .isFalse (by simp)
    | .ok _, .error _ => .isFalse (by simp)
    | .ok x, .ok y =>
      if h : x = y then .isTrue (by rw [h]) else .isFalse (by simp [h])

/-! ### Basic facts about the string primitives -/

theorem dropWhile_cons_head {α : Type} {p : α → Bool} {l : List α} {x : α} {t : List α}
    (h : List.dropWhile p l = x :: t) : p x = false := by
  induction l with
  | nil => simp at h
  | cons a l ih =>
    rw [List.dropWhile_cons] at h
    by_cases hp : p a = true
    · simp [hp] at h
      exact ih h
    · simp [hp] at h ⊢
      rw [h.1] at hp
      simpa using hp

theorem dropWhile_append_all {α : Type} {p : α → Bool} {a : List α} (r : List α)
    (h : ∀ c ∈ a, p c = true) : List.dropWhile p (a ++ r) = List.dropWhile p r := by
  induction a with
  | nil => rfl
  | cons x a ih =>
    have hx : p x = true := h x (by simp)
    simp only [List.cons_append, List.dropWhile_cons, hx, if_true]
    exact ih (fun c hc => h c (by simp [hc]))

theorem rstripL_sublist (l : Line) : (rstripL l).Sublist l := by
  have h := (List.dropWhile_sublist (l := l.reverse) isWS).reverse
  simpa [rstripL] using h

theorem stripL_sublist (l : Line) : (stripL l).Sublist l :=
  (List.dropWhile_sublist (l := rstripL l) isWS).trans (rstripL_sublist l)

theorem stripL_mem {l : Line} {c : Char} (h : c ∈ stripL l) : c ∈ l :=
  List.Sublist.mem h (stripL_sublist l)

theorem rstripL_getLast_not {l : Line} {c : Char}
    (h : (rstripL l).getLast? = some c) : isWS c = false := by
  have h1 : (rstripL l).reverse.head? = some c := by
    rw [List.head?_reverse]; exact h
  have h2 : (rstripL l).reverse = List.dropWhile isWS l.reverse := by
    simp [rstripL]
  rw [h2] at h1
  rcases hx : List.dropWhile isWS l.reverse with _ | ⟨x, t⟩
  · rw [hx] at h1; simp at h1
  · rw [hx] at h1
    simp at h1
    subst h1
    exact dropWhile_cons_head hx

theorem rstripL_eq_self_of_last {l : Line} {c : Char}
    (h : l.getLast? = some c) (hc : isWS c = false) : rstripL l = l := by
  have h1 : l.reverse.head? = some c := by rw [List.head?_reverse]; exact h
  rcases hrev : l.reverse with _ | ⟨x, t⟩
  · rw [hrev] at h1; simp at h1
  · rw [hrev] at h1
    simp at h1
    subst h1
    have h2 : rstripL l = (List.dropWhile isWS (x :: t)).reverse := by
      rw [rstripL, hrev]
    rw [h2, List.dropWhile_cons, hc]
    simp
    have h3 := congrArg List.reverse hrev
    simp at h3
    exact h3.symm

theorem stripL_nil : stripL ([] : Line) = [] := rfl

theorem stripL_idem (l : Line) : stripL (stripL l) = stripL l := by
  rcases hz : stripL l with _ | ⟨x, t⟩
  · rfl
  · have hzs : (x :: t) <:+ rstripL l := by
      rw [← hz]
      exact List.dropWhile_suffix (l := rstripL l) isWS
    obtain ⟨pre, hpre⟩ := hzs
    have hlast : (rstripL l).getLast? = (x :: t).getLast? := by
      rw [← hpre, List.getLast?_append]
      have : (x :: t).getLast? = some ((x :: t).getLast (by simp)) := List.getLast?_eq_getLast _ _
      rw [this]
      rfl
    obtain ⟨c, hc⟩ : ∃ c, (x :: t).getLast? = some c :=
      ⟨(x :: t).getLast (by simp), List.getLast?_eq_getLast _ _⟩
    have hcws : isWS c = false := by
      apply rstripL_getLast_not (l := l)
      rw [hlast]; exact hc
    have hr : rstripL (x :: t) = x :: t := rstripL_eq_self_of_last hc hcws
    show stripL (x :: t) = x :: t
    rw [stripL, lstripL, hr, ← hz]
    show List.dropWhile isWS (List.dropWhile isWS (rstripL l)) = stripL l
    rw [List.dropWhile_idempotent]
    rfl

theorem stripL_self_rstrip {l : Line} (h : stripL l = l) : rstripL l = l := by
  have h1 : (stripL l).length ≤ (rstripL l).length :=
    (List.dropWhile_sublist (l := rstripL l) isWS).length_le
  have h2 : (rstripL l).length ≤ l.length := (rstripL_sublist l).length_le
  have h3 : (stripL l).length = l.length := by rw [h]
  exact (rstripL_sublist l).eq_of_length (by omega)

theorem stripL_self_lstrip {l : Line} (h : stripL l = l) : List.dropWhile isWS l = l := by
  have hr := stripL_self_rstrip h
  calc List.dropWhile isWS l = List.dropWhile isWS (rstripL l) := by rw [hr]
  _ = stripL l := rfl
  _ = l := h

theorem stripL_eq_nil_iff {l : Line} : stripL l = [] ↔ ∀ c ∈ l, isWS c = true := by
  constructor
  · intro h c hc
    have hsplit := List.takeWhile_append_dropWhile isWS l.reverse
    have hc2 : c ∈ l.reverse := List.mem_reverse.2 hc
    rw [← hsplit] at hc2
    rcases List.mem_append.1 hc2 with h1 | h1
    · exact List.mem_takeWhile_imp h1
    · have hcr : c ∈ rstripL l := by
        rw [rstripL]
        exact List.mem_reverse.2 h1
      have := List.dropWhile_eq_nil_iff.1 (show List.dropWhile isWS (rstripL l) = [] from h)
      exact this c hcr
  · intro h
    have h1 : ∀ c ∈ rstripL l, isWS c = true := fun c hc =>
      h c (List.Sublist.mem hc (rstripL_sublist l))
    exact List.dropWhile_eq_nil_iff.2 h1

theorem stripL_ne_nil_of {l : Line} (h : stripL l = l) (hne : l ≠ []) :
    ∃ c ∈ l, isWS c = false := by
  by_contra hall
  push_neg at hall
  have : ∀ c ∈ l, isWS c = true := by
    intro c hc
    have := hall c hc
    simpa using this
  have := stripL_eq_nil_iff.2 this
  rw [h] at this
  exact hne this

theorem stripL_append_ws {a r : Line} (ha : ∀ c ∈ a, isWS c = true)
    (hr : stripL r = r) (hne : r ≠ []) : stripL (a ++ r) = r := by
  have hrr : rstripL r = r := stripL_self_rstrip hr
  obtain ⟨c, hc⟩ : ∃ c, r.getLast? = some c := by
    rcases r with _ | ⟨x, t⟩
    · exact absurd rfl hne
    · exact ⟨(x :: t).getLast (by simp), List.getLast?_eq_getLast _ _⟩
  have hcws : isWS c = false := by
    apply rstripL_getLast_not (l := r)
    rw [hrr]; exact hc
  have h1 : rstripL (a ++ r) = a ++ r := by
    apply rstripL_eq_self_of_last (c := c) _ hcws
    rw [List.getLast?_append, hc]
    rfl
  rw [stripL, lstripL, h1, dropWhile_append_all r ha]
  exact stripL_self_lstrip hr

/-! ### Facts about `pySplitlines` and `joinNL` -/

theorem pySplitlines_nl (t : Line) : pySplitlines ('\n' :: t) = [] :: pySplitlines t := rfl

set_option maxHeartbeats 2000000 in
theorem pySplitlines_cons_not_break {c : Char} (cs : Line) (h : isLineBreak c = false) :
    pySplitlines (c :: cs) =
      match pySplitlines cs with
      | [] => [[c]]
      | l :: ls => (c :: l) :: ls := by
  have hr : c ≠ '\r' := fun hc => by subst hc; simp [isLineBreak] at h
  rw [pySplitlines.eq_3 c cs (fun _ hc _ => hr hc), h]
  simp

theorem pySplitlines_break_not_ws : ∀ {t : Line}, ∀ l ∈ pySplitlines t, ∀ c ∈ l, isLineBreak c = false := by
  intro t
  induction t using pySplitlines.induct with
  | case1 => simp [pySplitlines]
  | case2 cs ih =>
    intro l hl c hc
    rw [show pySplitlines ('\r' :: '\n' :: cs) = [] :: pySplitlines cs from rfl] at hl
    rcases List.mem_cons.1 hl with rfl | hl
    · simp at hc
    · exact ih l hl c hc
  | case3 c cs hne hbr ih =>
    intro l hl d hd
    rw [pySplitlines.eq_3 c cs hne, if_pos hbr] at hl
    rcases List.mem_cons.1 hl with rfl | hl
    · simp at hd
    · exact ih l hl d hd
  | case4 c cs hne hbr hnil ih =>
    intro l hl d hd
    rw [pySplitlines.eq_3 c cs hne, if_neg hbr, hnil] at hl
    simp at hl
    subst hl
    simp at hd
    subst hd
    simpa using hbr
  | case5 c cs hne hbr l0 ls0 heq ih =>
    intro l hl d hd
    rw [pySplitlines.eq_3 c cs hne, if_neg hbr, heq] at hl
    rcases List.mem_cons.1 hl with rfl | hl
    · rcases List.mem_cons.1 hd with rfl | hd
      · simpa using hbr
      · exact ih l0 (by rw [heq]; simp) d hd
    · exact ih l (by rw [heq]; simp [hl]) d hd

theorem pySplitlines_append_nl {l : Line} (t : Line)
    (h : ∀ c ∈ l, isLineBreak c = false) :
    pySplitlines (l ++ '\n' :: t) = l :: pySplitlines t := by
  induction l with
  | nil => simp [pySplitlines_nl]
  | cons c l ih =>
    have hc : isLineBreak c = false := h c (by simp)
    rw [List.cons_append, pySplitlines_cons_not_break _ hc,
      ih (fun d hd => h d (by simp [hd]))]

theorem pySplitlines_joinNL : ∀ {lines : List Line}, lines ≠ [] →
    (∀ l ∈ lines, ∀ c ∈ l, isLineBreak c = false) →
    pySplitlines (joinNL lines ++ ('\n' :: [])) = lines := by
  intro lines
  induction lines with
  | nil => intro h; exact absurd rfl h
  | cons l rest ih =>
    intro _ h
    cases rest with
    | nil =>
      show pySplitlines (l ++ '\n' :: []) = [l]
      rw [pySplitlines_append_nl [] (fun c hc => h l (by simp) c hc)]
      rfl
    | cons l2 rest2 =>
      show pySplitlines ((l ++ '\n' :: joinNL (l2 :: rest2)) ++ ('\n' :: [])) = l :: l2 :: rest2
      rw [List.append_assoc, List.cons_append,
        pySplitlines_append_nl _ (fun c hc => h l (by simp) c hc),
        ih (by simp) (fun l' hl' c hc => h l' (by simp [hl']) c hc)]

/-! ### Facts about the split/search helpers -/

theorem splitAtFirst_append {target : Line} {a : List Line} (b : List Line)
    (ha : target ∉ a) : splitAtFirst target (a ++ target :: b) = some (a, target :: b) := by
  induction a with
  | nil => simp [splitAtFirst]
  | cons x a ih =>
    have hx : x ≠ target := fun h => ha (by simp [h])
    rw [List.cons_append, splitAtFirst, if_neg hx, ih (fun h => ha (by simp [h]))]

theorem splitBeforeFirst_single_append {c : Char} {lab : Line} (rest : Line)
    (h : c ∉ lab) : splitBeforeFirst (c :: []) (lab ++ c :: rest) = some (lab, rest) := by
  induction lab with
  | nil => simp [splitBeforeFirst]
  | cons x lab ih =>
    have hx : x ≠ c := fun hxc => h (by simp [hxc])
    have htake : (x :: (lab ++ c :: rest)).take 1 ≠ (c :: []) := by
      simp [hx]
    rw [List.cons_append, splitBeforeFirst]
    simp only [List.length_cons, List.length_nil, htake, if_neg]
    rw [ih (fun hm => h (by simp [hm]))]
    simp

theorem splitBeforeFirst_single_eq {c : Char} : ∀ {l a b : Line},
    splitBeforeFirst (c :: []) l = some (a, b) → l = a ++ c :: b ∧ c ∉ a := by
  intro l
  induction l with
  | nil => intro a b h; simp [splitBeforeFirst] at h
  | cons x xs ih =>
    intro a b h
    rw [splitBeforeFirst] at h
    by_cases hx : x = c
    · subst hx
      simp at h
      rcases h with ⟨rfl, rfl⟩
      simp
    · have hne : (x :: xs).take 1 ≠ (c :: []) := by simp [hx]
      simp only [List.length_cons, List.length_nil, hne, if_neg] at h
      rcases hsp : splitBeforeFirst (c :: []) xs with _ | ⟨a2, b2⟩
      · rw [hsp] at h; simp at h
      · rw [hsp] at h
        simp at h
        rcases h with ⟨rfl, rfl⟩
        rcases ih hsp with ⟨rfl, hnm⟩
        constructor
        · simp
        · simp [hnm]
          exact fun hc => hx hc.symm

/-! ### Facts about trailing-blank stripping -/

theorem dropWhile_isEmpty_reverse_self {s : List Line} {x : Line}
    (h : s.getLast? = some x) (hx : x ≠ []) :
    List.dropWhile (fun l => List.isEmpty l) s.reverse = s.reverse := by
  have hh : s.reverse.head? = some x := by rw [List.head?_reverse]; exact h
  rcases hrev : s.reverse with _ | ⟨y, t⟩
  · rfl
  · rw [hrev] at hh
    simp at hh
    have hy : y ≠ [] := by rw [hh]; exact hx
    have hne : List.isEmpty y = false := by
      rcases y with _ | ⟨a, b⟩
      · exact absurd rfl hy
      · rfl
    rw [List.dropWhile_cons]
    simp [hne]

theorem strip_trailing_blanks_self {lines : List Line} {x : Line}
    (h : lines.getLast? = some x) (hx : x ≠ []) : _strip_trailing_blanks lines = lines := by
  rw [_strip_trailing_blanks, dropWhile_isEmpty_reverse_self h hx, List.reverse_reverse]

theorem strip_trailing_section_append {s : List Line} {x : Line}
    (h : s.getLast? = some x) (hx : x ≠ []) :
    _strip_trailing_section_blanks (s ++ [[]]) = (s, 1) := by
  simp only [_strip_trailing_section_blanks]
  have h1 : (s ++ [[]] : List Line).reverse = [] :: s.reverse := by simp
  rw [h1, List.dropWhile_cons]
  simp only [List.isEmpty_nil, if_true]
  rw [dropWhile_isEmpty_reverse_self h hx]
  simp

/-! ### Facts about context processing -/

theorem nonBlankCount_nil : nonBlankCount [] = 0 := rfl

theorem nonBlankCount_cons (l : Line) (t : List Line) :
    nonBlankCount (l :: t) =
      if (stripL l).isEmpty then nonBlankCount t else nonBlankCount t + 1 := by
  by_cases h : (stripL l).isEmpty
  · simp [nonBlankCount, List.filter, h]
  · simp only [List.filter] at *
    simp [nonBlankCount, List.filter, h]

theorem ctxClean_map : ∀ {ls : List Line} {br ne : Nat} {c : List Line} {n : Nat},
    ctxClean ls br ne = .ok (c, n) → c = ls.map cleanLine := by
  intro ls
  induction ls with
  | nil => intro br ne c n h; simp [ctxClean] at h; simp [h.1]
  | cons l t ih =>
    intro br ne c n h
    rw [ctxClean] at h
    by_cases hb : (stripL l).isEmpty
    · rw [if_pos hb] at h
      by_cases hbr : br + 1 > 1
      · rw [if_pos hbr] at h; exact absurd h (by simp)
      · rw [if_neg hbr] at h
        rcases hrec : ctxClean t (br + 1) ne with e | ⟨c2, n2⟩
        · rw [hrec] at h; exact absurd h (by simp)
        · rw [hrec] at h
          simp at h
          rcases h with ⟨rfl, rfl⟩
          rw [List.map_cons, ← ih hrec, cleanLine, if_pos hb]
    · rw [if_neg hb] at h
      rcases hrec : ctxClean t 0 (ne + 1) with e | ⟨c2, n2⟩
      · rw [hrec] at h; exact absurd h (by simp)
      · rw [hrec] at h
        simp at h
        rcases h with ⟨rfl, rfl⟩
        rw [List.map_cons, ← ih hrec, cleanLine, if_neg hb]

theorem ctxClean_loop : ∀ {ls : List Line} {br ne : Nat} {c : List Line} {n : Nat},
    ctxClean ls br ne = .ok (c, n) → ctxLoop (ls.map cleanLine) br ne = .ok n := by
  intro ls
  induction ls with
  | nil =>
    intro br ne c n h
    simp [ctxClean] at h
    simp [ctxLoop, h.2.symm]
  | cons l t ih =>
    intro br ne c n h
    rw [ctxClean] at h
    rw [List.map_cons, ctxLoop]
    by_cases hb : (stripL l).isEmpty
    · rw [if_pos hb] at h
      by_cases hbr : br + 1 > 1
      · rw [if_pos hbr] at h; exact absurd h (by simp)
      · rw [if_neg hbr] at h
        rcases hrec : ctxClean t (br + 1) ne with e | ⟨c2, n2⟩
        · rw [hrec] at h; exact absurd h (by simp)
        · rw [hrec] at h
          simp at h
          have hcl : cleanLine l = [] := by rw [cleanLine, if_pos hb]
          rw [hcl]
          simp only [stripL_nil, List.isEmpty_nil, if_true]
          rw [if_neg hbr]
          exact h.2 ▸ ih hrec
    · rw [if_neg hb] at h
      rcases hrec : ctxClean t 0 (ne + 1) with e | ⟨c2, n2⟩
      · rw [hrec] at h; exact absurd h (by simp)
      · rw [hrec] at h
        simp at h
        have hcl : cleanLine l = stripL l := by rw [cleanLine, if_neg hb]
        rw [hcl, stripL_idem]
        rw [if_neg hb]
        exact h.2 ▸ ih hrec

theorem ctxLoop_adj_error : ∀ {ls : List Line}, hasAdjacentBlanks ls = true →
    ∀ br ne, ctxLoop ls br ne = .error .ctxConsecutiveBlanks := by
  intro ls
  induction ls with
  | nil => intro h; simp [hasAdjacentBlanks] at h
  | cons l t ih =>
    intro h br ne
    rw [ctxLoop]
    by_cases hb : (stripL l).isEmpty
    · rw [if_pos hb]
      by_cases hbr : br + 1 > 1
      · rw [if_pos hbr]
      · rw [if_neg hbr]
        cases t with
        | nil => simp [hasAdjacentBlanks] at h
        | cons l2 t2 =>
          rw [hasAdjacentBlanks] at h
          by_cases hb2 : (stripL l2).isEmpty
          · rw [ctxLoop, if_pos hb2, if_pos (by omega)]
          · have hadj : hasAdjacentBlanks (l2 :: t2) = true := by
              rcases (Bool.or_eq_true _ _ ▸ h : _ ∨ _) with h1 | h1
              · exact absurd (Bool.and_eq_true_iff.1 h1).2 hb2
              · exact h1
            exact ih hadj _ _
    · rw [if_neg hb]
      cases t with
      | nil => simp [hasAdjacentBlanks] at h
      | cons l2 t2 =>
        rw [hasAdjacentBlanks] at h
        have hadj : hasAdjacentBlanks (l2 :: t2) = true := by
          rcases (Bool.or_eq_true _ _ ▸ h : _ ∨ _) with h1 | h1
          · exact absurd (Bool.and_eq_true_iff.1 h1).1 hb
          · exact h1
        exact ih hadj _ _

theorem ctxClean_no_adj : ∀ (ls : List Line) (ne br : Nat),
    hasAdjacentBlanks ls = false →
    (br ≠ 0 → ∀ h t, ls = h :: t → (stripL h).isEmpty = false) →
    ctxClean ls br ne = .ok (ls.map cleanLine, ne + nonBlankCount ls) := by
  intro ls
  induction ls with
  | nil => intro ne br _ _; simp [ctxClean, nonBlankCount_nil]
  | cons l t ih =>
    intro ne br hadj hbr
    rw [ctxClean]
    by_cases hb : (stripL l).isEmpty
    · rw [if_pos hb]
      have hbr0 : br = 0 := by
        by_contra hne
        have := hbr hne l t rfl
        rw [hb] at this
        exact absurd this (by simp)
      subst hbr0
      rw [if_neg (by omega)]
      have hadjt : hasAdjacentBlanks t = false := by
        cases t with
        | nil => rfl
        | cons l2 t2 =>
          rw [hasAdjacentBlanks] at hadj
          exact (Bool.or_eq_false_iff.1 hadj).2
      have hhead : (1 : Nat) ≠ 0 → ∀ h2 t2, t = h2 :: t2 → (stripL h2).isEmpty = false := by
        intro _ h2 t2 heq
        subst heq
        rw [hasAdjacentBlanks] at hadj
        have := (Bool.or_eq_false_iff.1 hadj).1
        rcases Bool.and_eq_false_iff.1 this with h1 | h1
        · rw [hb] at h1; exact absurd h1 (by simp)
        · exact h1
      rw [ih ne 1 hadjt hhead]
      have : cleanLine l = [] := by rw [cleanLine, if_pos hb]
      rw [List.map_cons, this, nonBlankCount_cons, if_pos hb]
    · rw [if_neg hb]
      have hadjt : hasAdjacentBlanks t = false := by
        cases t with
        | nil => rfl
        | cons l2 t2 =>
          rw [hasAdjacentBlanks] at hadj
          exact (Bool.or_eq_false_iff.1 hadj).2
      rw [ih (ne + 1) 0 hadjt (by intro h; exact absurd rfl h)]
      have : cleanLine l = stripL l := by rw [cleanLine, if_neg hb]
      rw [List.map_cons, this, nonBlankCount_cons, if_neg hb]
      have harith : ne + 1 + nonBlankCount t = ne + (nonBlankCount t + 1) := by omega
      rw [harith]

theorem trimBlankEnds_sublist (ls : List Line) : (trimBlankEnds ls).Sublist ls := by
  rw [trimBlankEnds]
  have h1 : ((ls.dropWhile isBlankL).reverse.dropWhile isBlankL).Sublist (ls.dropWhile isBlankL).reverse :=
    List.dropWhile_sublist isBlankL
  have h2 := h1.reverse
  simp at h2
  exact h2.trans (List.dropWhile_sublist isBlankL)

theorem trimBlankEnds_head_not_blank {ls : List Line} {f : Line} {t : List Line}
    (h : trimBlankEnds ls = f :: t) : isBlankL f = false := by
  rw [trimBlankEnds] at h
  obtain ⟨pre, hpre⟩ :=
    List.dropWhile_suffix (l := (ls.dropWhile isBlankL).reverse) isBlankL
  have hu : ls.dropWhile isBlankL = (f :: t) ++ pre.reverse := by
    have := congrArg List.reverse hpre
    simp at this
    rw [← this, ← h]
  exact dropWhile_cons_head (by rw [hu]; rfl)

theorem trimBlankEnds_last_not_blank {ls : List Line} {x : Line}
    (h : (trimBlankEnds ls).getLast? = some x) : isBlankL x = false := by
  have h1 : (trimBlankEnds ls).reverse.head? = some x := by
    rw [List.head?_reverse]; exact h
  have h2 : (trimBlankEnds ls).reverse = (ls.dropWhile isBlankL).reverse.dropWhile isBlankL := by
    simp [trimBlankEnds]
  rw [h2] at h1
  rcases hx : (ls.dropWhile isBlankL).reverse.dropWhile isBlankL with _ | ⟨y, t⟩
  · rw [hx] at h1; simp at h1
  · rw [hx] at h1
    simp at h1
    subst h1
    exact dropWhile_cons_head hx

theorem flattenCtx_no_break {entries : List Line} {l : Line} (hl : l ∈ flattenCtx entries) :
    ∀ c ∈ l, isLineBreak c = false := by
  intro c hc
  rw [flattenCtx] at hl
  rcases List.mem_flatten.1 hl with ⟨g, hg, hlg⟩
  rcases List.mem_map.1 hg with ⟨e, _, rfl⟩
  rcases List.mem_map.1 hlg with ⟨l0, hl0, rfl⟩
  have hcl0 : c ∈ l0 := List.Sublist.mem hc (rstripL_sublist l0)
  exact pySplitlines_break_not_ws l0 hl0 c hcl0

theorem split_context_ok {entries ctx : List Line}
    (h : _split_context_lines entries = .ok ctx) :
    ctx ≠ [] ∧ ctx.head? ≠ some [] ∧ (∀ x, ctx.getLast? = some x → x ≠ []) ∧
    _validate_context_section ctx = none ∧
    (∀ l ∈ ctx, ∀ c ∈ l, isLineBreak c = false) := by
  rw [_split_context_lines] at h
  set tl := trimBlankEnds (flattenCtx entries) with htl
  by_cases hnil : tl = []
  · rw [if_pos hnil] at h; exact absurd h (by simp)
  · rw [if_neg hnil] at h
    rcases hcc : ctxClean tl 0 0 with e | ⟨c2, ne⟩
    · rw [hcc] at h; simp at h
    · rw [hcc] at h
      by_cases h8 : ne > MAX_CONTEXT_LINES
      · simp [h8] at h
      · simp [h8] at h
        have hctxeq : ctx = c2 := h.symm
        subst hctxeq
        have hmap : ctx = tl.map cleanLine := ctxClean_map hcc
        rcases htl2 : tl with _ | ⟨f, t⟩
        · exact absurd htl2 hnil
        · have hf : isBlankL f = false := trimBlankEnds_head_not_blank (htl ▸ htl2)
          have hfa : cleanLine f = stripL f := by
            rw [cleanLine, if_neg (by simpa [isBlankL] using hf)]
          have hfne : stripL f ≠ [] := by
            intro hcon
            rw [isBlankL, hcon] at hf
            simp at hf
          obtain ⟨x, hx⟩ : ∃ x, tl.getLast? = some x := by
            rw [htl2]
            exact ⟨(f :: t).getLast (by simp), List.getLast?_eq_getLast _ _⟩
          have hxb : isBlankL x = false := trimBlankEnds_last_not_blank (htl ▸ hx)
          have hxa : cleanLine x = stripL x := by
            rw [cleanLine, if_neg (by simpa [isBlankL] using hxb)]
          have hxne : stripL x ≠ [] := by
            intro hcon
            rw [isBlankL, hcon] at hxb
            simp at hxb
          have hlast : ctx.getLast? = some (stripL x) := by
            rw [hmap, List.getLast?_map, hx]
            simp [hxa]
          have hhead : ctx.head? = some (stripL f) := by
            rw [hmap, htl2]
            simp [hfa]
          refine ⟨?_, ?_, ?_, ?_, ?_⟩
          · rw [hmap, htl2]; simp
          · rw [hhead]; simp [hfne]
          · intro y hy
            rw [hlast] at hy
            simp at hy
            rw [← hy]
            exact hxne
          · rcases hctx2 : ctx with _ | ⟨f2, t2⟩
            · rw [hctx2] at hhead; simp at hhead
            · rw [hctx2] at hhead hlast
              simp at hhead
              have h1 : f2 ≠ [] := by rw [hhead]; exact hfne
              have h2 : (f2 :: t2).getLastD ([] : Line) = stripL x := by
                rw [List.getLastD_eq_getLast?, hlast]
                rfl
              have hloop : ctxLoop (tl.map cleanLine) 0 0 = .ok ne := ctxClean_loop hcc
              rw [← hmap, hctx2] at hloop
              simp only [_validate_context_section]
              simp [h1, h2, hxne, hloop, h8, hlast]
          · intro l hl c hc
            rw [hmap] at hl
            rcases List.mem_map.1 hl with ⟨l0, hl0, rfl⟩
            have hl0' : l0 ∈ flattenCtx entries :=
              List.Sublist.mem hl0 (htl ▸ trimBlankEnds_sublist (flattenCtx entries))
            by_cases hb : (stripL l0).isEmpty
            · rw [cleanLine, if_pos hb] at hc
              simp at hc
            · rw [cleanLine, if_neg hb] at hc
              exact flattenCtx_no_break hl0' c (stripL_mem hc)

/-! ### Facts about bullet-entry processing -/

theorem itemTail_ok {label : String} : ∀ {rs out : List Line},
    itemTail label rs = .ok out → out = rs.map stripL ∧ ∀ r ∈ out, stripL r = r ∧ r ≠ [] := by
  intro rs
  induction rs with
  | nil => intro out h; simp [itemTail] at h; subst h; simp
  | cons l t ih =>
    intro out h
    rw [itemTail] at h
    by_cases hb : (stripL l).isEmpty
    · rw [if_pos hb] at h; simp at h
    · rw [if_neg hb] at h
      rcases hrec : itemTail label t with e | t2
      · rw [hrec] at h; simp at h
      · rw [hrec] at h
        simp at h
        subst h
        rcases ih hrec with ⟨hmap, hall⟩
        constructor
        · rw [List.map_cons, hmap]
        · intro r hr
          rcases List.mem_cons.1 hr with rfl | hr
          · exact ⟨stripL_idem l, by simpa using hb⟩
          · exact hall r hr

theorem split_item_ok {item : Line} {label : String} {f : Line} {rest : List Line}
    (h : _split_item_lines item label = .ok (f, rest)) :
    stripL f = f ∧ f ≠ [] ∧ (∀ c ∈ f, isLineBreak c = false) ∧
    ∀ r ∈ rest, stripL r = r ∧ r ≠ [] ∧ ∀ c ∈ r, isLineBreak c = false := by
  rw [_split_item_lines] at h
  rcases htr : trimBlankEnds (pySplitlines item) with _ | ⟨first, rs⟩
  · rw [htr] at h; simp at h
  · rw [htr] at h
    simp only [] at h
    set f0 := stripL first with hf0
    set fv := if f0.take 2 = ('-' :: ' ' :: []) then stripL (f0.drop 2) else f0 with hfv
    by_cases hfe : fv = []
    · rw [if_pos hfe] at h; simp at h
    · rw [if_neg hfe] at h
      rcases hrec : itemTail label rs with e | t2
      · rw [hrec] at h; simp at h
      · rw [hrec] at h
        simp at h
        rcases h with ⟨rfl, rfl⟩
        have hfirst_mem : first ∈ pySplitlines item := by
          have : first ∈ trimBlankEnds (pySplitlines item) := by rw [htr]; simp
          exact List.Sublist.mem this (trimBlankEnds_sublist _)
        have hfirst_nb : ∀ c ∈ first, isLineBreak c = false :=
          fun c hc => pySplitlines_break_not_ws first hfirst_mem c hc
        have hfv_strip : stripL fv = fv := by
          rw [hfv]
          by_cases hp : f0.take 2 = ('-' :: ' ' :: [])
          · rw [if_pos hp, stripL_idem]
          · rw [if_neg hp, hf0, stripL_idem]
        have hfv_nb : ∀ c ∈ fv, isLineBreak c = false := by
          intro c hc
          apply hfirst_nb
          rw [hfv] at hc
          by_cases hp : f0.take 2 = ('-' :: ' ' :: [])
          · rw [if_pos hp] at hc
            have h1 : c ∈ f0.drop 2 := stripL_mem hc
            have h2 : c ∈ f0 := List.Sublist.mem h1 (List.drop_sublist 2 f0)
            exact stripL_mem h2
          · rw [if_neg hp] at hc
            exact stripL_mem hc
        refine ⟨hfv_strip, hfe, hfv_nb, ?_⟩
        intro r hr
        rcases itemTail_ok hrec with ⟨hmap, hall⟩
        rcases hall r hr with ⟨h1, h2⟩
        refine ⟨h1, h2, ?_⟩
        intro c hc
        rw [hmap] at hr
        rcases List.mem_map.1 hr with ⟨r0, hr0, rfl⟩
        have hr0_mem : r0 ∈ pySplitlines item := by
          have h3 : r0 ∈ trimBlankEnds (pySplitlines item) := by rw [htr]; simp [hr0]
          exact List.Sublist.mem h3 (trimBlankEnds_sublist _)
        exact pySplitlines_break_not_ws r0 hr0_mem c (stripL_mem hc)

theorem isEmpty_false_of_ne {l : Line} (h : l ≠ []) : l.isEmpty = false := by
  rcases l with _ | _
  · exact absurd rfl h
  · rfl

theorem stripL_two_space {r : Line} (hr : stripL r = r) (hne : r ≠ []) :
    stripL (' ' :: ' ' :: r) = r := by
  have : (' ' :: ' ' :: r) = ([' ', ' '] : Line) ++ r := rfl
  rw [this]
  exact stripL_append_ws (by decide) hr hne

theorem stripL_one_space {r : Line} (hr : stripL r = r) (hne : r ≠ []) :
    stripL (' ' :: r) = r := by
  have : (' ' :: r) = ([' '] : Line) ++ r := rfl
  rw [this]
  exact stripL_append_ws (by decide) hr hne

theorem bulletLoop_conts {rc : Bool} {label : String} :
    ∀ {rest : List Line}, (∀ r ∈ rest, stripL r = r ∧ r ≠ []) →
    ∀ (b : List Line) (n : Nat),
    bulletLoop rc label (rest.map (fun l => ' ' :: ' ' :: l) ++ b) true n =
      bulletLoop rc label b true n := by
  intro rest
  induction rest with
  | nil => intro _ b n; rfl
  | cons r t ih =>
    intro hres b n
    rcases hres r (by simp) with ⟨hr, hrne⟩
    rw [List.map_cons, List.cons_append, bulletLoop]
    rw [if_neg (by simp)]
    rw [if_neg (by simp)]
    rw [if_pos (by simp)]
    rw [if_neg (by simp)]
    rw [if_neg (by rw [stripL_two_space hr hrne]; simp [isEmpty_false_of_ne hrne])]
    exact ih (fun r2 h2 => hres r2 (by simp [h2])) b n

theorem bulletLoop_block {label : String} {f : Line} {rest : List Line}
    (hf : stripL f = f) (hfne : f ≠ []) (hres : ∀ r ∈ rest, stripL r = r ∧ r ≠ []) :
    ∀ (b : List Line) (inb : Bool) (n : Nat),
    bulletLoop false label ((('-' :: ' ' :: f) :: rest.map (fun l => ' ' :: ' ' :: l)) ++ b) inb n =
      bulletLoop false label b true (n + 1) := by
  intro b inb n
  rw [List.cons_append, bulletLoop]
  rw [if_neg (by simp)]
  rw [if_pos (by simp)]
  have hcontent : ('-' :: ' ' :: f).drop 2 = f := rfl
  rw [hcontent, if_neg (by rw [hf]; simp [isEmpty_false_of_ne hfne])]
  simp only [Bool.false_eq_true, if_false]
  exact bulletLoop_conts hres b (n + 1)

theorem bulletLoop_block_colon {label : String} {lab desc : Line} {rest : List Line}
    (hlab : stripL lab = lab) (hlabne : lab ≠ []) (hlabc : ':' ∉ lab)
    (hdesc : stripL desc = desc) (hdescne : desc ≠ [])
    (hres : ∀ r ∈ rest, stripL r = r ∧ r ≠ []) :
    ∀ (b : List Line) (inb : Bool) (n : Nat),
    bulletLoop true label
      ((('-' :: ' ' :: (lab ++ ':' :: ' ' :: desc)) :: rest.map (fun l => ' ' :: ' ' :: l)) ++ b) inb n =
      bulletLoop true label b true (n + 1) := by
  intro b inb n
  rw [List.cons_append, bulletLoop]
  rw [if_neg (by simp)]
  rw [if_pos (by simp)]
  have hcontent : ('-' :: ' ' :: (lab ++ ':' :: ' ' :: desc)).drop 2 = lab ++ ':' :: ' ' :: desc := rfl
  rw [hcontent]
  have hnonblank : (stripL (lab ++ ':' :: ' ' :: desc)).isEmpty = false := by
    have hnnil : stripL (lab ++ ':' :: ' ' :: desc) ≠ [] := by
      intro hcon
      have hall := stripL_eq_nil_iff.1 hcon
      have : isWS ':' = true := hall ':' (by simp)
      simp [isWS] at this
    exact isEmpty_false_of_ne hnnil
  rw [if_neg (by simp [hnonblank])]
  simp only [if_true]
  rw [splitBeforeFirst_single_append (' ' :: desc) hlabc]
  have hlabs : (stripL lab).isEmpty = false := by
    rw [hlab]; exact isEmpty_false_of_ne hlabne
  have hdescs : (stripL (' ' :: desc)).isEmpty = false := by
    rw [stripL_one_space hdesc hdescne]; exact isEmpty_false_of_ne hdescne
  simp only [hlabs, hdescs, Bool.or_self, Bool.false_eq_true, if_false]
  exact bulletLoop_conts hres b (n + 1)

theorem formatBulletEntries_shape {label : String} : ∀ {items el : List Line},
    formatBulletEntries label items = .ok el →
    ∀ l ∈ el, (l.head? = some '-' ∨ l.head? = some ' ') ∧ l ≠ [] ∧
      ∀ c ∈ l, isLineBreak c = false := by
  intro items
  induction items with
  | nil => intro el h; simp [formatBulletEntries] at h; subst h; simp
  | cons i rest ih =>
    intro el h l hl
    rw [formatBulletEntries] at h
    rcases hsp : _split_item_lines i label with e | ⟨f, t⟩
    · rw [hsp] at h; simp at h
    · rw [hsp] at h
      rcases hrec : formatBulletEntries label rest with e | rs
      · rw [hrec] at h; simp at h
      · rw [hrec] at h
        simp at h
        subst h
        rcases split_item_ok hsp with ⟨hf, hfne, hfnb, hrest⟩
        rcases List.mem_append.1 hl with hl1 | hl1
        · rw [_format_bullet_lines] at hl1
          rcases List.mem_cons.1 hl1 with rfl | hl2
          · refine ⟨Or.inl rfl, by simp, ?_⟩
            intro c hc
            rcases List.mem_cons.1 hc with rfl | hc
            · decide
            · rcases List.mem_cons.1 hc with rfl | hc
              · decide
              · exact hfnb c hc
          · rcases List.mem_map.1 hl2 with ⟨r, hr, rfl⟩
            rcases hrest r hr with ⟨_, hrne, hrnb⟩
            refine ⟨Or.inr rfl, by simp, ?_⟩
            intro c hc
            rcases List.mem_cons.1 hc with rfl | hc
            · decide
            · rcases List.mem_cons.1 hc with rfl | hc
              · decide
              · exact hrnb c hc
        · exact ih hrec l hl1

theorem formatBulletEntries_loop (vlabel : String) {label : String} : ∀ {items el : List Line},
    formatBulletEntries label items = .ok el → items ≠ [] →
    ∀ (b : List Line) (inb : Bool) (n : Nat),
    bulletLoop false vlabel (el ++ b) inb n = bulletLoop false vlabel b true (n + items.length) := by
  intro items
  induction items with
  | nil => intro el _ h; exact absurd rfl h
  | cons i rest ih =>
    intro el h _ b inb n
    rw [formatBulletEntries] at h
    rcases hsp : _split_item_lines i label with e | ⟨f, t⟩
    · rw [hsp] at h; simp at h
    · rw [hsp] at h
      rcases hrec : formatBulletEntries label rest with e | rs
      · rw [hrec] at h; simp at h
      · rw [hrec] at h
        simp at h
        subst h
        rcases split_item_ok hsp with ⟨hf, hfne, _, hrest⟩
        have hres2 : ∀ r ∈ t, stripL r = r ∧ r ≠ [] :=
          fun r hr => ⟨(hrest r hr).1, (hrest r hr).2.1⟩
        rw [List.append_assoc, _format_bullet_lines]
        rw [bulletLoop_block hf hfne hres2 (rs ++ b) inb n]
        cases rest with
        | nil =>
          have : rs = [] := by simp [formatBulletEntries] at hrec; exact hrec
          subst this
          simp
        | cons i2 rest2 =>
          rw [ih hrec (by simp) b true (n + 1)]
          have : n + 1 + (i2 :: rest2).length = n + (i :: i2 :: rest2).length := by
            simp; omega
          rw [this]

theorem validate_bullet_of_fmt {label vlabel : String} {items el : List Line}
    (h : formatBulletEntries label items = .ok el) (hne : items ≠ []) :
    _validate_bullet_section el vlabel false = none := by
  have hloop := formatBulletEntries_loop vlabel h hne [] false 0
  simp at hloop
  have hrhs : bulletLoop false vlabel [] true items.length = .ok items.length := rfl
  have hlen : items.length ≠ 0 := fun h0 => hne (List.length_eq_zero.1 h0)
  have helne : el ≠ [] := by
    intro hcon
    rw [hcon] at hloop
    have hlhs : bulletLoop false vlabel ([] : List Line) false 0 = .ok 0 := rfl
    rw [hlhs, hrhs] at hloop
    simp at hloop
    exact hlen hloop.symm
  rcases hel : el with _ | ⟨l0, t0⟩
  · exact absurd hel helne
  · show (match bulletLoop false vlabel (l0 :: t0) false 0 with
      | .error e => some e
      | .ok bc => if bc = 0 then some (.noBullet vlabel) else none) = none
    rw [← hel, hloop, hrhs]
    simp [hlen]


theorem formatChangeEntry_ok {o : PathOracle} {item : Line} {cl : List Line}
    (h : formatChangeEntry o item = .ok cl) :
    ∃ (lab desc : Line) (rest : List Line),
      cl = ('-' :: ' ' :: (lab ++ ':' :: ' ' :: desc)) :: List.map (fun l => ' ' :: ' ' :: l) rest ∧
      stripL lab = lab ∧ lab ≠ [] ∧ ':' ∉ lab ∧ stripL desc = desc ∧ desc ≠ [] ∧
      (∀ r ∈ rest, stripL r = r ∧ r ≠ []) ∧
      ∀ l ∈ cl, (l.head? = some '-' ∨ l.head? = some ' ') ∧ l ≠ [] ∧
        ∀ c ∈ l, isLineBreak c = false := by
  rcases hsp : _split_item_lines item ("--change entry") with e | ⟨first, rest⟩
  · simp only [formatChangeEntry, hsp] at h; simp at h
  · rcases hsplit : splitBeforeFirst (':' :: []) first with _ | ⟨labRaw, descRaw⟩
    · simp only [formatChangeEntry, hsp, hsplit] at h; simp at h
    · simp only [formatChangeEntry, hsp, hsplit] at h
      by_cases hle : stripL labRaw = []
      · rw [if_pos hle] at h; simp at h
      · rw [if_neg hle] at h
        by_cases hde : stripL descRaw = []
        · rw [if_pos hde] at h; simp at h
        · rw [if_neg hde] at h
          rcases split_item_ok hsp with ⟨hf, hfne, hfnb, hrest⟩
          rcases splitBeforeFirst_single_eq hsplit with ⟨hfeq, hnotin⟩
          have hcl : cl = _format_bullet_lines (stripL labRaw ++ ':' :: ' ' :: stripL descRaw) rest := by
            by_cases hv : _should_validate_path o (_extract_path_candidate (stripL labRaw)) = true
            · rw [if_pos hv] at h
              rcases hvp : _validate_path o (_extract_path_candidate (stripL labRaw)) with e | u
              · rw [hvp] at h; simp at h
              · rw [hvp] at h; simp at h; exact h.symm
            · rw [if_neg hv] at h; simp at h; exact h.symm
          refine ⟨stripL labRaw, stripL descRaw, rest, ?_, stripL_idem _, hle, ?_, stripL_idem _, hde, ?_, ?_⟩
          · rw [hcl]; rfl
          · intro hmem
            exact hnotin (stripL_mem hmem)
          · exact fun r hr => ⟨(hrest r hr).1, (hrest r hr).2.1⟩
          · intro l hl
            rw [hcl, _format_bullet_lines] at hl
            have hlabnb : ∀ c ∈ stripL labRaw, isLineBreak c = false := by
              intro c hc
              apply hfnb
              rw [hfeq]
              exact List.mem_append.2 (Or.inl (stripL_mem hc))
            have hdescnb : ∀ c ∈ stripL descRaw, isLineBreak c = false := by
              intro c hc
              apply hfnb
              rw [hfeq]
              exact List.mem_append.2 (Or.inr (by simp [stripL_mem hc]))
            rcases List.mem_cons.1 hl with rfl | hl2
            · refine ⟨Or.inl rfl, by simp, ?_⟩
              intro c hc
              rcases List.mem_cons.1 hc with rfl | hc
              · decide
              · rcases List.mem_cons.1 hc with rfl | hc
                · decide
                · rcases List.mem_append.1 hc with hc1 | hc1
                  · exact hlabnb c hc1
                  · rcases List.mem_cons.1 hc1 with rfl | hc2
                    · decide
                    · rcases List.mem_cons.1 hc2 with rfl | hc3
                      · decide
                      · exact hdescnb c hc3
            · rcases List.mem_map.1 hl2 with ⟨r, hr, rfl⟩
              rcases hrest r hr with ⟨_, hrne, hrnb⟩
              refine ⟨Or.inr rfl, by simp, ?_⟩
              intro c hc
              rcases List.mem_cons.1 hc with rfl | hc
              · decide
              · rcases List.mem_cons.1 hc with rfl | hc
                · decide
                · exact hrnb c hc

theorem formatChangeEntries_shape {o : PathOracle} : ∀ {items cl : List Line},
    formatChangeEntries o items = .ok cl →
    ∀ l ∈ cl, (l.head? = some '-' ∨ l.head? = some ' ') ∧ l ≠ [] ∧
      ∀ c ∈ l, isLineBreak c = false := by
  intro items
  induction items with
  | nil => intro cl h; simp [formatChangeEntries] at h; subst h; simp
  | cons i rest ih =>
    intro cl h l hl
    rw [formatChangeEntries] at h
    rcases hone : formatChangeEntry o i with e | ls
    · rw [hone] at h; simp at h
    · rw [hone] at h
      rcases hrec : formatChangeEntries o rest with e | rs
      · rw [hrec] at h; simp at h
      · rw [hrec] at h
        simp at h
        subst h
        rcases List.mem_append.1 hl with hl1 | hl1
        · rcases formatChangeEntry_ok hone with ⟨lab, desc, r2, _, _, _, _, _, _, _, hshape⟩
          exact hshape l hl1
        · exact ih hrec l hl1

theorem formatChangeEntries_loop (vlabel : String) {o : PathOracle} : ∀ {items cl : List Line},
    formatChangeEntries o items = .ok cl → items ≠ [] →
    ∀ (b : List Line) (inb : Bool) (n : Nat),
    bulletLoop true vlabel (cl ++ b) inb n = bulletLoop true vlabel b true (n + items.length) := by
  intro items
  induction items with
  | nil => intro cl _ h; exact absurd rfl h
  | cons i rest ih =>
    intro cl h _ b inb n
    rw [formatChangeEntries] at h
    rcases hone : formatChangeEntry o i with e | ls
    · rw [hone] at h; simp at h
    · rw [hone] at h
      rcases hrec : formatChangeEntries o rest with e | rs
      · rw [hrec] at h; simp at h
      · rw [hrec] at h
        simp at h
        subst h
        rcases formatChangeEntry_ok hone with
          ⟨lab, desc, r2, hls, hlab, hlabne, hlabc, hdesc, hdescne, hres, _⟩
        rw [List.append_assoc, hls]
        rw [bulletLoop_block_colon hlab hlabne hlabc hdesc hdescne hres (rs ++ b) inb n]
        cases rest with
        | nil =>
          have : rs = [] := by simp [formatChangeEntries] at hrec; exact hrec
          subst this
          simp
        | cons i2 rest2 =>
          rw [ih hrec (by simp) b true (n + 1)]
          have : n + 1 + (i2 :: rest2).length = n + (i :: i2 :: rest2).length := by
            simp; omega
          rw [this]

theorem validate_changes_of_fmt {o : PathOracle} {vlabel : String} {items cl : List Line}
    (h : formatChangeEntries o items = .ok cl) (hne : items ≠ []) :
    _validate_bullet_section cl vlabel true = none := by
  have hloop := formatChangeEntries_loop vlabel h hne [] false 0
  simp at hloop
  have hrhs : bulletLoop true vlabel [] true items.length = .ok items.length := rfl
  have hlen : items.length ≠ 0 := fun h0 => hne (List.length_eq_zero.1 h0)
  have hclne : cl ≠ [] := by
    intro hcon
    rw [hcon] at hloop
    have hlhs : bulletLoop true vlabel ([] : List Line) false 0 = .ok 0 := rfl
    rw [hlhs, hrhs] at hloop
    simp at hloop
    exact hlen hloop.symm
  rcases hel : cl with _ | ⟨l0, t0⟩
  · exact absurd hel hclne
  · show (match bulletLoop true vlabel (l0 :: t0) false 0 with
      | .error e => some e
      | .ok bc => if bc = 0 then some (.noBullet vlabel) else none) = none
    rw [← hel, hloop, hrhs]
    simp [hlen]

/-! ### The well-formed-message round trip -/

theorem parseSection_ok (sec rest2 : List Line) (header nh : Line) (hs nhs : String)
    (validate : List Line → Option LintError)
    (hsec_last : ∀ x, sec.getLast? = some x → x ≠ [])
    (hsec_ne : sec ≠ [])
    (hnh_notin : nh ∉ sec) (hnh_ne : nh ≠ ([] : Line))
    (hval : validate sec = none) :
    parseSection (header :: (sec ++ [] :: nh :: rest2)) header hs validate (some (nh, nhs)) =
      .ok (nh :: rest2) := by
  obtain ⟨x, hx⟩ : ∃ x, sec.getLast? = some x := by
    rcases sec with _ | ⟨a, b⟩
    · exact absurd rfl hsec_ne
    · exact ⟨(a :: b).getLast (by simp), List.getLast?_eq_getLast _ _⟩
  have hxe : x ≠ [] := hsec_last x hx
  have hassoc : sec ++ [] :: nh :: rest2 = (sec ++ [[]]) ++ nh :: rest2 := by
    rw [List.append_assoc]
    rfl
  have hnotin2 : nh ∉ sec ++ [[]] := by
    intro hmem
    rcases List.mem_append.1 hmem with h1 | h1
    · exact hnh_notin h1
    · simp at h1
      exact hnh_ne h1
  rw [hassoc]
  simp only [parseSection, splitAtFirst_append rest2 hnotin2,
    strip_trailing_section_append hx hxe, hval]
  simp [hsec_ne]

theorem parseSection_last_ok (sec : List Line) (header : Line) (hs : String)
    (validate : List Line → Option LintError)
    (hsec_ne : sec ≠ []) (hval : validate sec = none) :
    parseSection (header :: sec) header hs validate none = .ok [] := by
  simp only [parseSection, hval]
  simp [hsec_ne]

theorem getLast?_append_ne {α : Type} {a b : List α} (hb : b ≠ []) :
    (a ++ b).getLast? = b.getLast? := by
  obtain ⟨y, hy⟩ : ∃ y, b.getLast? = some y := by
    rcases b with _ | ⟨z, t⟩
    · exact absurd rfl hb
    · exact ⟨(z :: t).getLast (by simp), List.getLast?_eq_getLast _ _⟩
  rw [List.getLast?_append, hy]
  rfl

theorem getLast?_cons_ne {α : Type} {a : α} {l : List α} (h : l ≠ []) :
    (a :: l).getLast? = l.getLast? := by
  have : a :: l = [a] ++ l := rfl
  rw [this, getLast?_append_ne h]

theorem lint_wellformed
    (subj : Line) (ctx el cl dl : List Line)
    (hsubj_strip : stripL subj = subj) (hsubj_ne : subj ≠ [])
    (hsubj_nb : ∀ c ∈ subj, isLineBreak c = false)
    (hctx_last : ∀ x, ctx.getLast? = some x → x ≠ [])
    (hctx_val : _validate_context_section ctx = none)
    (hctx_nb : ∀ l ∈ ctx, ∀ c ∈ l, isLineBreak c = false)
    (hctx_noh : enHeader ∉ ctx)
    (hctx_ne : ctx ≠ [])
    (hel_shape : ∀ l ∈ el, (l.head? = some '-' ∨ l.head? = some ' ') ∧ l ≠ [] ∧
      ∀ c ∈ l, isLineBreak c = false)
    (hel_ne : el ≠ [])
    (hel_val : _validate_bullet_section el ("What this enables") false = none)
    (hcl_shape : ∀ l ∈ cl, (l.head? = some '-' ∨ l.head? = some ' ') ∧ l ≠ [] ∧
      ∀ c ∈ l, isLineBreak c = false)
    (hcl_ne : cl ≠ [])
    (hcl_val : _validate_bullet_section cl ("Changes") true = none)
    (hdl_shape : ∀ l ∈ dl, (l.head? = some '-' ∨ l.head? = some ' ') ∧ l ≠ [] ∧
      ∀ c ∈ l, isLineBreak c = false)
    (hdl_ne : dl ≠ [])
    (hdl_val : _validate_bullet_section dl ("Deferred") false = none) :
    lint_message (joinNL (subj :: ([] : Line) :: ctxHeader ::
        (ctx ++ [] :: enHeader :: (el ++ [] :: chHeader :: (cl ++ [] :: dfHeader :: dl)))) ++
      ('\n' :: [])) = none := by
  set L : List Line := subj :: ([] : Line) :: ctxHeader ::
    (ctx ++ [] :: enHeader :: (el ++ [] :: chHeader :: (cl ++ [] :: dfHeader :: dl))) with hL
  have hheadctx : ∀ c ∈ ctxHeader, isLineBreak c = false := by decide
  have hheaden : ∀ c ∈ enHeader, isLineBreak c = false := by decide
  have hheadch : ∀ c ∈ chHeader, isLineBreak c = false := by decide
  have hheaddf : ∀ c ∈ dfHeader, isLineBreak c = false := by decide
  have hLnb : ∀ l ∈ L, ∀ c ∈ l, isLineBreak c = false := by
    intro l hl
    rw [hL] at hl
    simp only [List.mem_cons, List.mem_append] at hl
    rcases hl with rfl | rfl | rfl | hl | rfl | rfl | hl | rfl | rfl | hl | rfl | rfl | hl
    · exact hsubj_nb
    · simp
    · exact hheadctx
    · exact hctx_nb l hl
    · simp
    · exact hheaden
    · exact (hel_shape l hl).2.2
    · simp
    · exact hheadch
    · exact (hcl_shape l hl).2.2
    · simp
    · exact hheaddf
    · exact (hdl_shape l hl).2.2
  have hsplit : pySplitlines (joinNL L ++ ('\n' :: [])) = L :=
    pySplitlines_joinNL (by rw [hL]; simp) hLnb
  obtain ⟨x, hx⟩ : ∃ x, dl.getLast? = some x := by
    rcases dl with _ | ⟨a, b⟩
    · exact absurd rfl hdl_ne
    · exact ⟨(a :: b).getLast (by simp), List.getLast?_eq_getLast _ _⟩
  have hxne : x ≠ [] := (hdl_shape x (List.mem_of_mem_getLast? hx)).2.1
  have hLlast : L.getLast? = some x := by
    rw [hL]
    rw [getLast?_cons_ne (by simp), getLast?_cons_ne (by simp), getLast?_cons_ne (by simp),
      getLast?_append_ne (by simp), getLast?_cons_ne (by simp), getLast?_cons_ne (by simp),
      getLast?_append_ne (by simp), getLast?_cons_ne (by simp), getLast?_cons_ne (by simp),
      getLast?_append_ne (by simp), getLast?_cons_ne (by simp), getLast?_cons_ne hdl_ne]
    exact hx
  have hstrip : _strip_trailing_blanks L = L := strip_trailing_blanks_self hLlast hxne
  -- the four parse steps
  have hnotin_en : enHeader ∉ ctx := hctx_noh
  have hnotin_ch : chHeader ∉ el := by
    intro hmem
    rcases (hel_shape chHeader hmem).1 with h1 | h1 <;> simp [chHeader] at h1
  have hnotin_df : dfHeader ∉ cl := by
    intro hmem
    rcases (hcl_shape dfHeader hmem).1 with h1 | h1 <;> simp [dfHeader] at h1
  have hel_last : ∀ y, el.getLast? = some y → y ≠ [] :=
    fun y hy => (hel_shape y (List.mem_of_mem_getLast? hy)).2.1
  have hcl_last : ∀ y, cl.getLast? = some y → y ≠ [] :=
    fun y hy => (hcl_shape y (List.mem_of_mem_getLast? hy)).2.1
  have hS1 := parseSection_ok ctx (el ++ [] :: chHeader :: (cl ++ [] :: dfHeader :: dl))
    ctxHeader enHeader ("Context:") ("What this enables:") _validate_context_section
    hctx_last hctx_ne hnotin_en (by simp [enHeader]) hctx_val
  have hS2 := parseSection_ok el (cl ++ [] :: dfHeader :: dl)
    enHeader chHeader ("What this enables:") ("Changes (by file):")
    (fun ls => _validate_bullet_section ls ("What this enables") false)
    hel_last hel_ne hnotin_ch (by simp [chHeader]) hel_val
  have hS3 := parseSection_ok cl dl
    chHeader dfHeader ("Changes (by file):") ("Deferred:")
    (fun ls => _validate_bullet_section ls ("Changes") true)
    hcl_last hcl_ne hnotin_df (by simp [dfHeader]) hcl_val
  have hS4 := parseSection_last_ok dl dfHeader ("Deferred:")
    (fun ls => _validate_bullet_section ls ("Deferred") false) hdl_ne hdl_val
  -- assemble
  rw [lint_message]
  rw [hsplit, hstrip]
  rw [hL]
  simp only [List.length_cons, List.getElem?_cons_succ, List.getElem?_cons_zero]
  rw [if_neg (by rw [hsubj_strip]; simp [isEmpty_false_of_ne hsubj_ne])]
  rw [if_neg (by simp)]
  simp only [List.drop_succ_cons, List.drop_zero]
  simp only [bind, Except.bind, hS1, hS2, hS3, hS4]

theorem bullet_section_none_ne {el : List Line} {vlabel : String} {rc : Bool}
    (h : _validate_bullet_section el vlabel rc = none) : el ≠ [] := by
  intro hcon
  rw [hcon] at h
  simp [_validate_bullet_section] at h

/-- Helper: the flat list built by `format_message` in its nested-cons form. -/
theorem assemble_eq (subj : Line) (ctx el cl dl : List Line) :
    ([subj, [], ctxHeader] ++ ctx ++ [[], enHeader] ++ el ++ [[], chHeader] ++ cl ++
      [[], dfHeader] ++ dl : List Line) =
    subj :: ([] : Line) :: ctxHeader ::
      (ctx ++ [] :: enHeader :: (el ++ [] :: chHeader :: (cl ++ [] :: dfHeader :: dl))) := by
  simp [List.append_assoc]

/-- C1, amended: the round trip holds whenever the trimmed subject contains no
line-break character and no canonical context line equals the
`What this enables:` header line. -/
theorem c1_round_trip (o : PathOracle) (subject : Line)
    (context enables changes deferred : List Line) (t : Line)
    (hsubj_nb : ∀ c ∈ stripL subject, isLineBreak c = false)
    (hctx_noh : ∀ ctx, _split_context_lines context = .ok ctx → enHeader ∉ ctx)
    (h : format_message o subject context enables changes deferred = .ok t) :
    lint_message t = none := by
  rw [format_message] at h
  by_cases hs : stripL subject = []
  · rw [if_pos hs] at h; simp at h
  · rw [if_neg hs] at h
    by_cases hc : context = []
    · rw [if_pos hc] at h; simp at h
    · rw [if_neg hc] at h
      rcases hctx : _split_context_lines context with e | ctx
      · rw [hctx] at h; simp at h
      · simp only [hctx] at h
        by_cases he : enables = []
        · rw [if_pos he] at h; simp at h
        · rw [if_neg he] at h
          rcases hel : formatBulletEntries ("--enable entry") enables with e | el
          · rw [hel] at h; simp at h
          · simp only [hel] at h
            by_cases hch : changes = []
            · rw [if_pos hch] at h; simp at h
            · rw [if_neg hch] at h
              rcases hcl : formatChangeEntries o changes with e | cl
              · rw [hcl] at h; simp at h
              · simp only [hcl] at h
                by_cases hd : deferred = []
                · rw [if_pos hd] at h; simp at h
                · rw [if_neg hd] at h
                  rcases hdl : formatBulletEntries ("--deferred entry") deferred with e | dl
                  · rw [hdl] at h; simp at h
                  · simp only [hdl] at h
                    simp only [Except.ok.injEq] at h
                    subst h
                    rw [assemble_eq]
                    rcases split_context_ok hctx with ⟨hcne, _, hclast, hcval, hcnb⟩
                    have hel_val : _validate_bullet_section el ("What this enables") false = none :=
                      validate_bullet_of_fmt hel he
                    have hcl_val : _validate_bullet_section cl ("Changes") true = none :=
                      validate_changes_of_fmt hcl hch
                    have hdl_val : _validate_bullet_section dl ("Deferred") false = none :=
                      validate_bullet_of_fmt hdl hd
                    exact lint_wellformed (stripL subject) ctx el cl dl
                      (stripL_idem subject) hs hsubj_nb
                      hclast hcval hcnb (hctx_noh ctx hctx) hcne
                      (formatBulletEntries_shape hel) (bullet_section_none_ne hel_val) hel_val
                      (formatChangeEntries_shape hcl) (bullet_section_none_ne hcl_val) hcl_val
                      (formatBulletEntries_shape hdl) (bullet_section_none_ne hdl_val) hdl_val

/-! ### Additional inversion lemmas for the claims -/

theorem splitBeforeFirst_single_none {c : Char} : ∀ {l : Line},
    c ∉ l → splitBeforeFirst (c :: []) l = none := by
  intro l
  induction l with
  | nil => intro _; rfl
  | cons x xs ih =>
    intro h
    have hx : x ≠ c := fun hxc => h (by simp [hxc])
    rw [splitBeforeFirst]
    have hne : (x :: xs).take 1 ≠ (c :: []) := by simp [hx]
    simp only [List.length_cons, List.length_nil, hne, if_neg]
    rw [ih (fun hm => h (by simp [hm]))]
    simp

/-! ### Claim theorems -/

/-- C2: the Validator's verdict depends on the text alone: `lint_message`
takes only the text (no `PathOracle` argument anywhere in the Validator
embedding), and a well-formed message whose change bullet names a path that
exists nowhere (no oracle is even consultable) is accepted. -/
theorem c2_validator_text_only :
    lint_message ("Subject\n\nContext:\nctx line\n\nWhat this enables:\n- thing\n\nChanges (by file):\n- nonexistent/file.py: desc\n\nDeferred:\n- later\n").data = none := by
  decide

/-- C7 counterexample: a context entry with leading whitespace does not keep
it; `_split_context_lines` strips it, so the claim that leading whitespace is
preserved unchanged fails at entry `"  indented"`. -/
theorem c7_counterexample :
    _split_context_lines [("  indented").data] = .ok [("indented").data] ∧
    ("indented").data ≠ ("  indented").data := by
  constructor
  · decide
  · decide

/-- C7, amended: every canonical context line is the fully stripped form of
its source line (leading and trailing whitespace removed; blank lines become
empty), not merely right-trimmed. -/
theorem c7_context_strip (entries ctx : List Line)
    (h : _split_context_lines entries = .ok ctx) :
    ctx = (trimBlankEnds (flattenCtx entries)).map cleanLine := by
  rw [_split_context_lines] at h
  by_cases hnil : trimBlankEnds (flattenCtx entries) = []
  · rw [if_pos hnil] at h; simp at h
  · rw [if_neg hnil] at h
    rcases hcc : ctxClean (trimBlankEnds (flattenCtx entries)) 0 0 with e | ⟨c2, ne⟩
    · rw [hcc] at h; simp at h
    · rw [hcc] at h
      by_cases h8 : ne > MAX_CONTEXT_LINES
      · simp [h8] at h
      · simp [h8] at h
        rw [← h]
        exact ctxClean_map hcc

/-- C7 witness: the amended statement evaluated at a concrete entry. -/
theorem c7_context_strip_witness :
    ([("a b").data] : List Line) = (trimBlankEnds (flattenCtx [("  a b ").data])).map cleanLine :=
  c7_context_strip [("  a b ").data] [("a b").data] (by decide)

/-- C9: an OS-level error from the git subprocess makes the deleted-path
query return `false`, so a within-repo, non-existing path is then reported
as not found by `_validate_path`. -/
theorem c9_git_error (o : PathOracle) (path : Line)
    (herr : o.gitLsDeleted path = .error ()) :
    _is_deleted_in_git o path = false ∧
    (o.resolvesToRoot path = false → o.withinRoot path = true →
      o.resolvedExists path = false →
      _validate_path o path = .error (.pathNotFound path)) := by
  have hdel : _is_deleted_in_git o path = false := by
    rw [_is_deleted_in_git, herr]
  refine ⟨hdel, ?_⟩
  intro h1 h2 h3
  rw [_validate_path, h1, h2, h3, hdel]
  simp

/-- C9 witness: the statement at a concrete oracle whose git call fails. -/
theorem c9_git_error_witness :
    _is_deleted_in_git errOracle ("x.py").data = false ∧
    (errOracle.resolvesToRoot ("x.py").data = false →
      errOracle.withinRoot ("x.py").data = true →
      errOracle.resolvedExists ("x.py").data = false →
      _validate_path errOracle ("x.py").data = .error (.pathNotFound ("x.py").data)) :=
  c9_git_error errOracle ("x.py").data rfl

/-- C10: an accepted change entry renders its first bullet line as
`"- "` + stripped label + `": "` + stripped description, where label and
description are the parts around the first colon of the entry's (stripped)
first line; and the concrete spacing example. -/
theorem c10_bullet_render :
    (∀ (o : PathOracle) (item : Line) (out : List Line),
      formatChangeEntry o item = .ok out →
      ∃ (first labRaw descRaw : Line) (rest : List Line),
        _split_item_lines item ("--change entry") = .ok (first, rest) ∧
        splitBeforeFirst (':' :: []) first = some (labRaw, descRaw) ∧
        out.head? = some ('-' :: ' ' :: (stripL labRaw ++ ':' :: ' ' :: stripL descRaw))) ∧
    formatChangeEntry (fsOracle [("a.py").data]) ("a.py :  fix  bug").data =
      .ok [("- a.py: fix  bug").data] := by
  constructor
  · intro o item out h
    rcases hsp : _split_item_lines item ("--change entry") with e | ⟨first, rest⟩
    · simp only [formatChangeEntry, hsp] at h; simp at h
    · rcases hsplit : splitBeforeFirst (':' :: []) first with _ | ⟨labRaw, descRaw⟩
      · simp only [formatChangeEntry, hsp, hsplit] at h; simp at h
      · simp only [formatChangeEntry, hsp, hsplit] at h
        by_cases hle : stripL labRaw = []
        · rw [if_pos hle] at h; simp at h
        · rw [if_neg hle] at h
          by_cases hde : stripL descRaw = []
          · rw [if_pos hde] at h; simp at h
          · rw [if_neg hde] at h
            refine ⟨first, labRaw, descRaw, rest, rfl, hsplit, ?_⟩
            have hout : out = _format_bullet_lines (stripL labRaw ++ ':' :: ' ' :: stripL descRaw) rest := by
              by_cases hv : _should_validate_path o (_extract_path_candidate (stripL labRaw)) = true
              · rw [if_pos hv] at h
                rcases hvp : _validate_path o (_extract_path_candidate (stripL labRaw)) with e | u
                · rw [hvp] at h; simp at h
                · rw [hvp] at h; simp at h; exact h.symm
              · rw [if_neg hv] at h; simp at h; exact h.symm
            rw [hout]
            rfl
  · decide

/-- C10 witness: the universal statement's concrete conclusion. -/
theorem c10_bullet_render_witness :
    formatChangeEntry (fsOracle [("a.py").data]) ("a.py :  fix  bug").data =
      .ok [("- a.py: fix  bug").data] :=
  c10_bullet_render.2

/-- C5: path validation of a change label: inside the repo and not the root,
a non-existing path fails with `pathNotFound` exactly when git does not
record it as deleted (and passes when it does); resolving outside the root
fails with `pathOutsideRepo`; resolving to the root fails with `pathIsRoot`.
Concretely, `"nonexistent/file.py"` fails formatting with `pathNotFound`
against an oracle where it neither exists nor is deleted, and formats
successfully when the oracle reports it deleted. -/
theorem c5_path_guard :
    (∀ (o : PathOracle) (path : Line),
      (o.resolvesToRoot path = false → o.withinRoot path = true →
        o.resolvedExists path = false →
        ((_validate_path o path = .error (.pathNotFound path) ↔
            _is_deleted_in_git o path = false) ∧
         (_is_deleted_in_git o path = true → _validate_path o path = .ok ()))) ∧
      (o.withinRoot path = false → _validate_path o path = .error (.pathOutsideRepo path)) ∧
      (o.resolvesToRoot path = true → _validate_path o path = .error .pathIsRoot)) ∧
    format_message errOracle ("s").data [("c").data] [("e").data]
      [("nonexistent/file.py: desc").data] [("d").data] =
      .error (.pathNotFound ("nonexistent/file.py").data) ∧
    format_message (deletedOracle [("nonexistent/file.py").data]) ("s").data [("c").data]
      [("e").data] [("nonexistent/file.py: desc").data] [("d").data] =
      .ok ("s\n\nContext:\nc\n\nWhat this enables:\n- e\n\nChanges (by file):\n- nonexistent/file.py: desc\n\nDeferred:\n- d\n").data := by
  refine ⟨?_, by decide, by decide⟩
  intro o path
  refine ⟨?_, ?_, ?_⟩
  · intro h1 h2 h3
    rw [_validate_path, h1, h2, h3]
    simp only [Bool.false_eq_true, if_false, if_true]
    constructor
    · constructor
      · intro h4
        by_cases h5 : _is_deleted_in_git o path = true
        · rw [h5] at h4; simp at h4
        · simpa using h5
      · intro h4
        rw [h4]
        simp
    · intro h4
      rw [h4]
      simp
  · intro h1
    have h2 : o.resolvesToRoot path = false := by
      by_cases h3 : o.resolvesToRoot path = true
      · rw [o.root_within path h3] at h1; simp at h1
      · simpa using h3
    rw [_validate_path, h1, h2]
    simp
  · intro h1
    rw [_validate_path, h1]
    simp

/-- C5 witness: the not-found case evaluated against a concrete oracle. -/
theorem c5_path_guard_witness :
    _validate_path errOracle ("nonexistent/file.py").data =
      .error (.pathNotFound ("nonexistent/file.py").data) :=
  ((c5_path_guard.1 errOracle ("nonexistent/file.py").data).1 rfl rfl rfl).1.2 rfl

/-- C4: after entry stripping, a change entry's first line with no colon
fails with `missingColon`; with a colon but an empty trimmed label fails
with `missingLabel`; with a colon, a non-empty label and an empty trimmed
description fails with `missingDescription` — plus the three concrete
cases through `format_message`. -/
theorem c4_change_colon :
    (∀ (o : PathOracle) (item first : Line) (rest : List Line),
      _split_item_lines item ("--change entry") = .ok (first, rest) →
      (':' ∉ first → formatChangeEntry o item = .error (.missingColon item)) ∧
      (∀ labRaw descRaw : Line, splitBeforeFirst (':' :: []) first = some (labRaw, descRaw) →
        (stripL labRaw = [] → formatChangeEntry o item = .error (.missingLabel item)) ∧
        (stripL labRaw ≠ [] → stripL descRaw = [] →
          formatChangeEntry o item = .error (.missingDescription item)))) ∧
    format_message errOracle ("s").data [("c").data] [("e").data]
      [("no colon here").data] [("d").data] = .error (.missingColon ("no colon here").data) ∧
    format_message errOracle ("s").data [("c").data] [("e").data]
      [("path.py:").data] [("d").data] = .error (.missingDescription ("path.py:").data) ∧
    format_message errOracle ("s").data [("c").data] [("e").data]
      [(": description").data] [("d").data] = .error (.missingLabel (": description").data) := by
  refine ⟨?_, by decide, by decide, by decide⟩
  intro o item first rest hsp
  constructor
  · intro hnc
    simp only [formatChangeEntry, hsp, splitBeforeFirst_single_none hnc]
  · intro labRaw descRaw hsplit
    constructor
    · intro hle
      simp only [formatChangeEntry, hsp, hsplit]
      rw [if_pos hle]
    · intro hle hde
      simp only [formatChangeEntry, hsp, hsplit]
      rw [if_neg hle, if_pos hde]

/-- C4 witness: the missing-colon branch evaluated on a concrete entry. -/
theorem c4_change_colon_witness :
    formatChangeEntry errOracle ("no colon here").data =
      .error (.missingColon ("no colon here").data) :=
  ((c4_change_colon.1 errOracle ("no colon here").data ("no colon here").data []
    (by decide)).1 (by decide))

/-- C6 counterexample: a message whose Context body (as delimited by the
Validator) is `["", "", "a"]` — which does contain two adjacent blank
lines — is rejected with the edge-blank diagnostic, not the
consecutive-blank one. -/
theorem c6_counterexample :
    hasAdjacentBlanks ([] :: ([] : Line) :: [("a").data]) = true ∧
    lint_message ("s\n\nContext:\n\n\na\n\nWhat this enables:\n- e\n\nChanges (by file):\n- l: d\n\nDeferred:\n- d\n").data =
      some .ctxEdgeBlank ∧
    LintError.ctxEdgeBlank ≠ LintError.ctxConsecutiveBlanks := by
  refine ⟨by decide, by decide, by decide⟩

/-- C6, amended: a context whose flattened lines are `["a", "", "", "b"]`
fails formatting with the consecutive-blank violation; a Validator context
body containing two adjacent blank lines is always rejected, and with the
consecutive-blank diagnostic provided the body does not begin or end with
an exactly-empty line; the same raw text is rejected by `lint_message` with
the consecutive-blank diagnostic. -/
theorem c6_consecutive_blanks :
    (∀ entries : List Line, flattenCtx entries = [("a").data, [], [], ("b").data] →
      _split_context_lines entries = .error .consecutiveBlanks) ∧
    (∀ body : List Line, hasAdjacentBlanks body = true → body.head? ≠ some [] →
      (∀ x, body.getLast? = some x → x ≠ []) →
      _validate_context_section body = some .ctxConsecutiveBlanks) ∧
    (∀ body : List Line, hasAdjacentBlanks body = true →
      (_validate_context_section body).isSome = true) ∧
    lint_message ("s\n\nContext:\na\n\n\nb\n\nWhat this enables:\n- e\n\nChanges (by file):\n- l: d\n\nDeferred:\n- d\n").data =
      some .ctxConsecutiveBlanks := by
  have hmain : ∀ body : List Line, hasAdjacentBlanks body = true → body.head? ≠ some [] →
      (∀ x, body.getLast? = some x → x ≠ []) →
      _validate_context_section body = some .ctxConsecutiveBlanks := by
    intro body hadj hh hl
    rcases hb : body with _ | ⟨f, t⟩
    · rw [hb] at hadj; simp [hasAdjacentBlanks] at hadj
    · rw [hb] at hh hl hadj
      have hf : f ≠ [] := by
        intro hcon
        exact hh (by simp [hcon])
      obtain ⟨x, hx⟩ : ∃ x, (f :: t).getLast? = some x :=
        ⟨(f :: t).getLast (by simp), List.getLast?_eq_getLast _ _⟩
      simp only [_validate_context_section]
      rw [if_neg (by
        simp only [List.getLastD_eq_getLast?, hx, Option.getD_some]
        simp [hf, hl x hx])]
      rw [ctxLoop_adj_error hadj 0 0]
  refine ⟨?_, hmain, ?_, by decide⟩
  · intro entries hflat
    rw [_split_context_lines, hflat]
    decide
  · intro body hadj
    rcases hb : body with _ | ⟨f, t⟩
    · rw [hb] at hadj; simp [hasAdjacentBlanks] at hadj
    · simp only [_validate_context_section]
      by_cases hedge : (decide (f = []) || decide ((f :: t).getLastD [] = [])) = true
      · rw [if_pos hedge]
        rfl
      · rw [if_neg hedge]
        rw [hb] at hadj
        rw [ctxLoop_adj_error hadj 0 0]
        rfl

/-- C6 witness: the format-side statement evaluated at one concrete entry
whose lines flatten to `["a", "", "", "b"]`. -/
theorem c6_consecutive_blanks_witness :
    _split_context_lines [("a\n\n\nb").data] = .error .consecutiveBlanks :=
  c6_consecutive_blanks.1 [("a\n\n\nb").data] (by decide)

/-- C3 counterexample: a context input with more than 8 non-blank lines
that also contains two adjacent blank lines fails with the
consecutive-blank violation, not the context-length one. -/
theorem c3_counterexample :
    format_message errOracle ("s").data [("a\n\n\nb\nc\nd\ne\nf\ng\nh\ni").data] [("e").data]
      [("the code: fix").data] [("d").data] = .error .consecutiveBlanks ∧
    nonBlankCount (trimBlankEnds (flattenCtx [("a\n\n\nb\nc\nd\ne\nf\ng\nh\ni").data])) >
      MAX_CONTEXT_LINES ∧
    FmtError.consecutiveBlanks ≠ FmtError.contextTooLong := by
  refine ⟨by decide, by decide, by decide⟩

/-- C3, amended: provided the subject is non-blank and the flattened,
end-trimmed context lines contain no two adjacent blank lines, strictly
more than 8 non-blank lines make `format_message` fail with the
context-length violation, and exactly 8 (with the other sections present
and themselves valid) lets formatting succeed. -/
theorem c3_context_bounds (o : PathOracle) (subject : Line)
    (context enables changes deferred : List Line)
    (hsubj : stripL subject ≠ [])
    (hadj : hasAdjacentBlanks (trimBlankEnds (flattenCtx context)) = false) :
    (nonBlankCount (trimBlankEnds (flattenCtx context)) > MAX_CONTEXT_LINES →
      format_message o subject context enables changes deferred = .error .contextTooLong) ∧
    (nonBlankCount (trimBlankEnds (flattenCtx context)) = MAX_CONTEXT_LINES →
      enables ≠ [] → changes ≠ [] → deferred ≠ [] →
      ∀ el, formatBulletEntries ("--enable entry") enables = .ok el →
      ∀ cl, formatChangeEntries o changes = .ok cl →
      ∀ dl, formatBulletEntries ("--deferred entry") deferred = .ok dl →
      ∃ t, format_message o subject context enables changes deferred = .ok t) := by
  have hclean := ctxClean_no_adj (trimBlankEnds (flattenCtx context)) 0 0
    hadj (fun h => absurd rfl h)
  constructor
  · intro hgt
    have htlne : trimBlankEnds (flattenCtx context) ≠ [] := by
      intro hcon
      rw [hcon] at hgt
      simp [nonBlankCount, MAX_CONTEXT_LINES] at hgt
    have hctxne : context ≠ [] := by
      intro hcon
      rw [hcon] at htlne
      exact htlne rfl
    have hsplit : _split_context_lines context = .error .contextTooLong := by
      rw [_split_context_lines]
      rw [if_neg htlne, hclean]
      simp only [Nat.zero_add]
      rw [if_pos hgt]
    rw [format_message, if_neg hsubj, if_neg hctxne]
    simp only [hsplit]
  · intro heq he hch hd el hel cl hcl dl hdl
    have htlne : trimBlankEnds (flattenCtx context) ≠ [] := by
      intro hcon
      rw [hcon] at heq
      simp [nonBlankCount, MAX_CONTEXT_LINES] at heq
    have hctxne : context ≠ [] := by
      intro hcon
      rw [hcon] at htlne
      exact htlne rfl
    have hsplit : _split_context_lines context =
        .ok ((trimBlankEnds (flattenCtx context)).map cleanLine) := by
      rw [_split_context_lines]
      rw [if_neg htlne, hclean]
      simp only [Nat.zero_add]
      rw [if_neg (by rw [heq]; simp)]
    rw [format_message, if_neg hsubj, if_neg hctxne]
    simp only [hsplit, hel, hcl, hdl]
    rw [if_neg he, if_neg hch, if_neg hd]
    exact ⟨_, rfl⟩

/-- C3 witness: nine plain non-blank context lines fail with the length
violation. -/
theorem c3_context_bounds_witness :
    format_message errOracle ("s").data [("a\nb\nc\nd\ne\nf\ng\nh\ni").data] [("e").data]
      [("the code: fix").data] [("d").data] = .error .contextTooLong :=
  (c3_context_bounds errOracle ("s").data [("a\nb\nc\nd\ne\nf\ng\nh\ni").data] [("e").data]
    [("the code: fix").data] [("d").data] (by decide) (by decide)).1 (by decide)

/-! ### No branch of the Validator other than the empty-input check emits
the empty-message diagnostic -/

theorem ctxLoop_error_kind : ∀ {ls : List Line} {br ne : Nat} {e : LintError},
    ctxLoop ls br ne = .error e → e = .ctxConsecutiveBlanks := by
  intro ls
  induction ls with
  | nil => intro br ne e h; simp [ctxLoop] at h
  | cons l t ih =>
    intro br ne e h
    rw [ctxLoop] at h
    by_cases hb : (stripL l).isEmpty
    · rw [if_pos hb] at h
      by_cases hbr : br + 1 > 1
      · rw [if_pos hbr] at h
        simp at h
        exact h.symm
      · rw [if_neg hbr] at h
        exact ih h
    · rw [if_neg hb] at h
      exact ih h

theorem validate_ctx_not_em {ls : List Line} {e : LintError}
    (h : _validate_context_section ls = some e) : e ≠ .emptyMessage := by
  rw [_validate_context_section.eq_def] at h
  rcases ls with _ | ⟨f, t⟩
  · simp at h
    rw [← h]
    simp
  · simp only [] at h
    split at h
    · simp at h
      rw [← h]
      simp
    · split at h
      · rename_i e2 heq
        simp at h
        rw [← h]
        rw [ctxLoop_error_kind heq]
        simp
      · split at h
        · simp at h
          rw [← h]
          simp
        · simp at h

theorem bulletLoop_error_kind : ∀ {ls : List Line} {rc : Bool} {label : String}
    {inb : Bool} {bc : Nat} {e : LintError},
    bulletLoop rc label ls inb bc = .error e → e ≠ .emptyMessage := by
  intro ls
  induction ls with
  | nil => intro rc label inb bc e h; simp [bulletLoop] at h
  | cons l t ih =>
    intro rc label inb bc e h
    rw [bulletLoop] at h
    repeat' (first | split at h | simp only [] at h)
    all_goals first
      | exact ih h
      | (simp at h; done)
      | (simp at h; rw [← h]; simp)

theorem validate_bullet_not_em {ls : List Line} {label : String} {rc : Bool} {e : LintError}
    (h : _validate_bullet_section ls label rc = some e) : e ≠ .emptyMessage := by
  rw [_validate_bullet_section.eq_def] at h
  rcases ls with _ | ⟨f, t⟩
  · simp at h
    rw [← h]
    simp
  · simp only [] at h
    split at h
    · rename_i e2 heq
      simp at h
      rw [← h]
      exact bulletLoop_error_kind heq
    · split at h
      · simp at h
        rw [← h]
        simp
      · simp at h

theorem parseSection_not_em {rem : List Line} {header : Line} {hs : String}
    {validate : List Line → Option LintError} {nh : Option (Line × String)} {e : LintError}
    (hv : ∀ ls e2, validate ls = some e2 → e2 ≠ .emptyMessage)
    (h : parseSection rem header hs validate nh = .error e) : e ≠ .emptyMessage := by
  rw [parseSection.eq_def] at h
  rcases rem with _ | ⟨l, rest⟩
  · simp at h
    rw [← h]
    simp
  · simp only [] at h
    split at h
    · simp at h; rw [← h]; simp
    · split at h
      · split at h
        · simp at h; rw [← h]; simp
        · split at h
          · simp at h; rw [← h]; simp
          · split at h
            · simp at h; rw [← h]; simp
            · split at h
              · rename_i e2 heq
                simp at h
                rw [← h]
                exact hv _ _ heq
              · simp at h
      · split at h
        · simp at h; rw [← h]; simp
        · split at h
          · rename_i e2 heq
            simp at h
            rw [← h]
            exact hv _ _ heq
          · simp at h

theorem except_bind_error {α β γ : Type} {x : Except α β} {f : β → Except α γ} {e : α}
    (h : x >>= f = .error e) : x = .error e ∨ ∃ a, x = .ok a ∧ f a = .error e := by
  rcases x with a | b
  · left
    have h2 : (Except.error a : Except α γ) = .error e := h
    simp only [Except.error.injEq] at h2
    rw [h2]
  · right
    exact ⟨b, rfl, h⟩

/-- C8 counterexample: a message consisting of one all-whitespace line is
not stripped to nothing; it fails with the empty-subject diagnostic, not
the empty-message one, although every character of the line is whitespace. -/
theorem c8_counterexample :
    lint_message ("   ").data = some .emptySubject ∧
    (∀ c ∈ ("   ").data, isWS c = true) ∧
    LintError.emptySubject ≠ LintError.emptyMessage := by
  refine ⟨by decide, by decide, by decide⟩

/-- C8, amended: `lint_message` strips only trailing lines that are exactly
empty (a whitespace-only line such as `" "` is kept), and it fails with the
empty-message violation exactly when nothing remains after that stripping. -/
theorem c8_empty_message :
    (∀ text : Line, lint_message text = some .emptyMessage ↔
      _strip_trailing_blanks (pySplitlines text) = []) ∧
    _strip_trailing_blanks [(" ").data] = [(" ").data] := by
  refine ⟨?_, by decide⟩
  intro text
  rcases hl : _strip_trailing_blanks (pySplitlines text) with _ | ⟨subject, rest⟩
  · simp only [lint_message, hl]
  · simp only [lint_message, hl]
    constructor
    · intro h
      exfalso
      by_cases hsub : (stripL subject).isEmpty
      · rw [if_pos hsub] at h
        simp at h
      · rw [if_neg hsub] at h
        by_cases hcond : ((subject :: rest).length < 3 ||
            (subject :: rest)[1]? ≠ some []) = true
        · rw [if_pos hcond] at h
          simp at h
        · rw [if_neg hcond] at h
          have hnotem : ∀ e : LintError,
              (do
                let r1 ← parseSection ((subject :: rest).drop 2) ctxHeader ("Context:")
                  _validate_context_section (some (enHeader, "What this enables:"))
                let r2 ← parseSection r1 enHeader ("What this enables:")
                  (fun ls => _validate_bullet_section ls ("What this enables") false)
                  (some (chHeader, "Changes (by file):"))
                let r3 ← parseSection r2 chHeader ("Changes (by file):")
                  (fun ls => _validate_bullet_section ls ("Changes") true)
                  (some (dfHeader, "Deferred:"))
                parseSection r3 dfHeader ("Deferred:")
                  (fun ls => _validate_bullet_section ls ("Deferred") false) none :
                Except LintError (List Line)) = .error e → e ≠ .emptyMessage := by
            intro e hchain
            rcases except_bind_error hchain with h1 | ⟨r1, _, h1⟩
            · exact parseSection_not_em (fun ls e2 hh => validate_ctx_not_em hh) h1
            · rcases except_bind_error h1 with h2 | ⟨r2, _, h2⟩
              · exact parseSection_not_em (fun ls e2 hh => validate_bullet_not_em hh) h2
              · rcases except_bind_error h2 with h3 | ⟨r3, _, h3⟩
                · exact parseSection_not_em (fun ls e2 hh => validate_bullet_not_em hh) h3
                · exact parseSection_not_em (fun ls e2 hh => validate_bullet_not_em hh) h3
          rcases hr : (do
              let r1 ← parseSection ((subject :: rest).drop 2) ctxHeader ("Context:")
                _validate_context_section (some (enHeader, "What this enables:"))
              let r2 ← parseSection r1 enHeader ("What this enables:")
                (fun ls => _validate_bullet_section ls ("What this enables") false)
                (some (chHeader, "Changes (by file):"))
              let r3 ← parseSection r2 chHeader ("Changes (by file):")
                (fun ls => _validate_bullet_section ls ("Changes") true)
                (some (dfHeader, "Deferred:"))
              parseSection r3 dfHeader ("Deferred:")
                (fun ls => _validate_bullet_section ls ("Deferred") false) none :
              Except LintError (List Line)) with e | r
          · rw [hr] at h
            simp at h
            exact hnotem e hr h
          · rw [hr] at h
            simp at h
    · intro h
      simp at h

/-- C8 witness: the amended statement at the empty input. -/
theorem c8_empty_message_witness : lint_message [] = some LintError.emptyMessage :=
  (c8_empty_message.1 []).2 rfl

set_option maxRecDepth 4000 in
/-- C1 counterexample: a subject containing an embedded newline formats
successfully, but the resulting text is rejected by the Validator (the
second physical line is not blank), so the unconditional round-trip claim
fails. -/
theorem c1_counterexample :
    format_message errOracle ("a\nb").data [("c").data] [("e").data]
      [("the code: fix").data] [("d").data] =
      .ok ("a\nb\n\nContext:\nc\n\nWhat this enables:\n- e\n\nChanges (by file):\n- the code: fix\n\nDeferred:\n- d\n").data ∧
    lint_message ("a\nb\n\nContext:\nc\n\nWhat this enables:\n- e\n\nChanges (by file):\n- the code: fix\n\nDeferred:\n- d\n").data ≠ none := by
  refine ⟨by decide, by decide⟩

set_option maxRecDepth 4000 in
/-- C1 witness: the amended round trip at the concrete inputs of the claim. -/
theorem c1_round_trip_witness :
    lint_message ("Add caching layer\n\nContext:\nReduces repeated lookups\n\nWhat this enables:\n- Faster repeated reads\n\nChanges (by file):\n- cache.py: add LRU cache (new file)\n\nDeferred:\n- Add eviction metrics\n").data = none :=
  c1_round_trip (fsOracle [("cache.py").data]) ("Add caching layer").data
    [("Reduces repeated lookups").data] [("Faster repeated reads").data]
    [("cache.py: add LRU cache (new file)").data] [("Add eviction metrics").data]
    _
    (by decide)
    (by
      intro ctx h
      rw [show _split_context_lines [("Reduces repeated lookups").data] =
        .ok [("Reduces repeated lookups").data] by decide] at h
      cases h
      decide)
    (by decide)
